import Mathlib

/-!
# Span sessions of `ngx_lua_resty_protobuf.cpp`

A shallow embedding of the class `Handle` (the trace session: a stack of open
spans, a trace id, and the buffer of serialized spans) together with the two
process-wide collaborators it reads: the random generator `g_dist(g_rng)` and
the system clock.

Conventions.
* A `std::string` is a list of bytes; `std::string(p, len)` is the list of the
  `len` bytes at `p`, so every `(const char*, uint64_t)` pair of the C++
  signature is one `Bytes` argument here.
* `uint64_t` values are natural numbers reduced modulo `2 ^ 64`.
* `std::stack<Span*>` is a list whose head is the top. Every `Span` is pointed
  to by exactly one stack slot, so the stack stores the message by value.
* `m_context.top()` on an empty stack has no defined behaviour in C++; an
  operation that reaches it returns `none`.
-/

namespace LuaRestyProtobuf

/-! ## Bytes and protobuf wire primitives -/

abbrev Byte := Fin 256

abbrev Bytes := List Byte

/-- The low eight bits of a natural number. -/
def byte (n : Nat) : Byte := ⟨n % 256, Nat.mod_lt n (by decide)⟩

/-- Base-128 varint digits, least significant group first; `fuel` bounds the
number of groups (ten groups cover 64 bits). -/
def varintAux : Nat → Nat → Bytes
  | 0, _ => []
  | fuel + 1, n =>
    if n < 128 then [byte n] else byte (n % 128 + 128) :: varintAux fuel (n / 128)

/-- Protobuf varint of a 64-bit unsigned value. -/
def varint (n : Nat) : Bytes := varintAux 10 (n % 2 ^ 64)

/-- The eight bytes of a 64-bit unsigned value, least significant byte first
(the in-memory layout on the little-endian targets the module is built for,
and the protobuf `fixed64` layout). -/
def bytes8 (n : Nat) : Bytes := (List.range 8).map fun i => byte (n % 2 ^ 64 / 256 ^ i)

/-- A length-delimited field: tag byte, varint length, payload. -/
def lenDelimited (tag : Nat) (payload : Bytes) : Bytes :=
  byte tag :: (varint payload.length ++ payload)

/-- A proto3 `bytes`/`string` field without explicit presence: omitted when empty. -/
def bytesField (tag : Nat) (payload : Bytes) : Bytes :=
  if payload = [] then [] else lenDelimited tag payload

/-- A proto3 `fixed64` field without explicit presence: omitted when zero. -/
def fixed64Field (tag : Nat) (v : Nat) : Bytes :=
  if v % 2 ^ 64 = 0 then [] else byte tag :: bytes8 v

/-! ## Messages (from `opentelemetry/proto/trace/v1/trace.pb.h`) -/

/-- Modelled from the spec: the message `AnyValue` of the generated header
`opentelemetry/proto/common/v1/common.pb.h`, restricted to the four variants
the module sets (string, bool, signed 64-bit integer, double). A double is
kept as its 64-bit IEEE-754 pattern. -/
inductive AnyValue where
  | string_value (v : Bytes)
  | bool_value (v : Bool)
  | int_value (v : Int)
  | double_value (bits : Nat)
  deriving DecidableEq, Repr

/-- Modelled from the spec: the message `KeyValue` of the generated header
`opentelemetry/proto/common/v1/common.pb.h`: a key and an optional value. -/
structure KeyValue where
  key : Bytes := []
  value : Option AnyValue := none
  deriving DecidableEq, Repr

/-- Modelled from the spec: the message `Span` of the generated header
`opentelemetry/proto/trace/v1/trace.pb.h`, with the fields the module writes
and the attribute list. A freshly created message has every field at its
default; `bytes` fields have no separate presence bit, so an id that was never
set is the empty byte string. The remaining fields of the schema are never
written by the module, stay at their defaults and occupy no bytes on the wire. -/
structure Span where
  trace_id : Bytes := []
  span_id : Bytes := []
  parent_span_id : Bytes := []
  name : Bytes := []
  start_time_unix_nano : Nat := 0
  end_time_unix_nano : Nat := 0
  attributes : List KeyValue := []
  deriving DecidableEq, Repr

/-- Modelled from the spec: wire bytes of an `AnyValue` (members of a oneof
are written even at their default value). Field numbers: string 1, bool 2,
int 3, double 4. -/
def AnyValue.encode : AnyValue → Bytes
  | .string_value v => lenDelimited 0x0A v
  | .bool_value v => [byte 0x10, if v then 1 else 0]
  | .int_value v => byte 0x18 :: varint (v % 2 ^ 64).toNat
  | .double_value bits => byte 0x21 :: bytes8 bits

/-- Modelled from the spec: wire bytes of a `KeyValue` (key is field 1, value
is field 2). -/
def KeyValue.encode (kv : KeyValue) : Bytes :=
  bytesField 0x0A kv.key ++
    (match kv.value with
     | none => []
     | some v => lenDelimited 0x12 v.encode)

/-- Modelled from the spec: the serializer of the generated `Span` class
(`Serializer.encode` of the specification), absent from the sources. Fields
are written in field-number order: trace id (1), span id (2), parent span id
(4), name (5), start time (7), end time (8), attributes (9). -/
def Span.encode (sp : Span) : Bytes :=
  bytesField 0x0A sp.trace_id ++ bytesField 0x12 sp.span_id ++
  bytesField 0x22 sp.parent_span_id ++ bytesField 0x2A sp.name ++
  fixed64Field 0x39 sp.start_time_unix_nano ++ fixed64Field 0x41 sp.end_time_unix_nano ++
  (sp.attributes.map fun kv => lenDelimited 0x4A kv.encode).flatten

/-- Model of `Span::AppendToString(std::string*)`: the encoding is appended to
the string, nothing else is written. -/
def Span.AppendToString (sp : Span) (out : Bytes) : Bytes := out ++ sp.encode

/-! ## Process-wide collaborators -/

/-- The environment a session reads: `rng k` is the value of the `k`-th call
of `g_dist(g_rng)` made by the process, `clock k` the nanosecond count of the
`k`-th reading of `system_clock::now()`; `drawn` and `read` count the calls
made so far. -/
structure World where
  rng : Nat → Nat
  drawn : Nat
  clock : Nat → Nat
  read : Nat

/-- Model of `_now_unix_nano`: one clock reading, as a `uint64_t`. -/
def _now_unix_nano (w : World) : Nat × World :=
  (w.clock w.read % 2 ^ 64, { w with read := w.read + 1 })

/-- Model of `_gen_random_8bytes`: one draw, as a `uint64_t`. -/
def _gen_random_8bytes (w : World) : Nat × World :=
  (w.rng w.drawn % 2 ^ 64, { w with drawn := w.drawn + 1 })

/-- Model of `_gen_random_trace_id`: two draws, laid out one after the other. -/
def _gen_random_trace_id (w : World) : Bytes × World :=
  let (a, w) := _gen_random_8bytes w
  let (b, w) := _gen_random_8bytes w
  (bytes8 a ++ bytes8 b, w)

/-- Model of `_gen_random_span_id`: the bytes of one draw. -/
def _gen_random_span_id (w : World) : Bytes × World :=
  let (span_id, w) := _gen_random_8bytes w
  (bytes8 span_id, w)

/-! ## The class `Handle` -/

/-- The members of `Handle`. `m_arena` lists the `KeyValue` messages that were
allocated on the arena and are referenced by nothing else (spans are stored by
value in `m_context`). -/
structure Handle where
  m_context : List Span
  m_arena : List KeyValue
  m_trace_id : Bytes
  m_serialized : Bytes

/-- Model of `_has_parent_span`. -/
def _has_parent_span (h : Handle) : Bool := h.m_context.length != 0

/-- Model of `_get_parent_span_id`: the span id of the top of the stack. The
call `m_context.top()` requires a non-empty stack. -/
def _get_parent_span_id (h : Handle) (hne : h.m_context ≠ []) : Bytes :=
  (h.m_context.head hne).span_id

/-- Model of the constructor `Handle::Handle()`. -/
def Handle.new (w : World) : Handle × World :=
  let (tid, w) := _gen_random_trace_id w
  ({ m_context := [], m_arena := [], m_trace_id := tid, m_serialized := [] }, w)

/-- Model of `Handle::enter_span`. -/
def enter_span (h : Handle) (w : World) (name : Bytes) : Handle × World :=
  let span : Span := {}
  let span := { span with name := name }
  let (now, w) := _now_unix_nano w
  let span := { span with start_time_unix_nano := now }
  let span := { span with trace_id := h.m_trace_id }
  let (sid, w) := _gen_random_span_id w
  let span := { span with span_id := sid }
  let span :=
    if hp : _has_parent_span h = true then
      { span with parent_span_id :=
          _get_parent_span_id h (by intro hnil; simp [_has_parent_span, hnil] at hp) }
    else span
  ({ h with m_context := span :: h.m_context }, w)

/-- Model of `Handle::add_string_attribute`: a `KeyValue` is built on the
arena; the method ends there. -/
def add_string_attribute (h : Handle) (name val : Bytes) : Handle :=
  let kv : KeyValue := {}
  let kv := { kv with key := name }
  let any_val := AnyValue.string_value val
  let kv := { kv with value := some any_val }
  { h with m_arena := h.m_arena ++ [kv] }

/-- Model of `Handle::add_bool_attribute` (`val` is the `int32_t` argument). -/
def add_bool_attribute (h : Handle) (name : Bytes) (val : Int) : Handle :=
  let kv : KeyValue := {}
  let kv := { kv with key := name }
  let any_val := AnyValue.bool_value (if val = 0 then false else true)
  let kv := { kv with value := some any_val }
  { h with m_arena := h.m_arena ++ [kv] }

/-- Model of `Handle::add_int64_attribute`. -/
def add_int64_attribute (h : Handle) (name : Bytes) (val : Int) : Handle :=
  let kv : KeyValue := {}
  let kv := { kv with key := name }
  let any_val := AnyValue.int_value val
  let kv := { kv with value := some any_val }
  { h with m_arena := h.m_arena ++ [kv] }

/-- Model of `Handle::add_double_attribute` (`val` is the bit pattern of the
`double` argument). -/
def add_double_attribute (h : Handle) (name : Bytes) (val : Nat) : Handle :=
  let kv : KeyValue := {}
  let kv := { kv with key := name }
  let any_val := AnyValue.double_value val
  let kv := { kv with value := some any_val }
  { h with m_arena := h.m_arena ++ [kv] }

/-- Model of `Handle::exit_span`. The first statement is `m_context.top()`;
on an empty stack the call has no defined behaviour and the model returns
`none`. -/
def exit_span (h : Handle) (w : World) : Option (Handle × World) :=
  match h.m_context with
  | [] => none
  | span :: rest =>
    let (now, w) := _now_unix_nano w
    let span := { span with end_time_unix_nano := now }
    let serialized := span.AppendToString h.m_serialized
    some ({ h with m_serialized := serialized, m_context := rest }, w)

/-- Model of `Handle::get_serialized_data`. `buf` is the content of the
caller's buffer before the call and `buf_len` the capacity passed with it.
The result is the handle after the call, the returned `uint64_t`, and the
content of the caller's buffer after the call (`memcpy` overwrites its first
`m_serialized.size()` bytes). -/
def get_serialized_data (h : Handle) (buf : Bytes) (buf_len : Nat) : Handle × Nat × Bytes :=
  if buf_len < h.m_serialized.length then
    (h, 0, buf)
  else
    (h, h.m_serialized.length, h.m_serialized ++ buf.drop h.m_serialized.length)

/-! ## Sequences of calls on one session -/

/-- One call of the foreign-call surface on a live handle. -/
inductive Op where
  | enter_span (name : Bytes)
  | add_string_attribute (name val : Bytes)
  | add_bool_attribute (name : Bytes) (val : Int)
  | add_int64_attribute (name : Bytes) (val : Int)
  | add_double_attribute (name : Bytes) (val : Nat)
  | exit_span
  | get_serialized_data (buf : Bytes) (buf_len : Nat)

/-- A session under observation: the handle, the environment, and the record
`closed` of the spans handed to the serializer so far, in the order of the
`exit_span` calls. `closed` is bookkeeping of the observer, not program state. -/
structure Session where
  handle : Handle
  world : World
  closed : List Span

/-- The span that `exit_span` hands to `AppendToString`: the top of the stack
with its end time set to the clock reading of the call. -/
def closingSpan (h : Handle) (w : World) : Option Span :=
  match h.m_context with
  | [] => none
  | span :: _ => some { span with end_time_unix_nano := (_now_unix_nano w).1 }

/-- `lua_resty_protobuf_trace_new`: a new handle in the given environment. -/
def Session.new (w : World) : Session :=
  { handle := (Handle.new w).1, world := (Handle.new w).2, closed := [] }

/-- One call applied to a session; `none` when the call has no defined
behaviour. -/
def step (s : Session) : Op → Option Session
  | .enter_span name =>
    let r := enter_span s.handle s.world name
    some { s with handle := r.1, world := r.2 }
  | .add_string_attribute name val =>
    some { s with handle := add_string_attribute s.handle name val }
  | .add_bool_attribute name val =>
    some { s with handle := add_bool_attribute s.handle name val }
  | .add_int64_attribute name val =>
    some { s with handle := add_int64_attribute s.handle name val }
  | .add_double_attribute name val =>
    some { s with handle := add_double_attribute s.handle name val }
  | .exit_span =>
    match exit_span s.handle s.world, closingSpan s.handle s.world with
    | some r, some sp => some { handle := r.1, world := r.2, closed := s.closed ++ [sp] }
    | _, _ => none
  | .get_serialized_data buf buf_len =>
    some { s with handle := (get_serialized_data s.handle buf buf_len).1 }

/-- A sequence of calls applied in order. -/
def run (s : Session) : List Op → Option Session
  | [] => some s
  | op :: ops => (step s op).bind fun s1 => run s1 ops

/-- The parent links of a stack (top first): every span names the span right
beneath it as its parent, and the bottom span names none. -/
def ParentChain : List Span → Prop
  | [] => True
  | [sp] => sp.parent_span_id = []
  | sp :: below :: rest => sp.parent_span_id = below.span_id ∧ ParentChain (below :: rest)

/-- The parent-link property can be checked by evaluation. -/
instance ParentChain.decidable : (l : List Span) → Decidable (ParentChain l)
  | [] => isTrue trivial
  | [sp] => inferInstanceAs (Decidable (sp.parent_span_id = []))
  | sp :: below :: rest =>
    @instDecidableAnd _ _ (inferInstanceAs (Decidable (sp.parent_span_id = below.span_id)))
      (ParentChain.decidable (below :: rest))

/-- The message that `enter_span` pushes, written out field by field. -/
def enteredSpan (h : Handle) (w : World) (name : Bytes) : Span :=
  { trace_id := h.m_trace_id
    span_id := bytes8 (w.rng w.drawn % 2 ^ 64)
    parent_span_id :=
      match h.m_context with
      | [] => []
      | top :: _ => top.span_id
    name := name
    start_time_unix_nano := w.clock w.read % 2 ^ 64
    end_time_unix_nano := 0
    attributes := [] }

/-- Calls that open a span. -/
def Op.isEnter : Op → Bool
  | .enter_span _ => true
  | _ => false

/-- Calls that close a span. -/
def Op.isExit : Op → Bool
  | .exit_span => true
  | _ => false

/-- What holds of a session with trace id `tid` after any sequence of calls. -/
structure Session.Inv (tid : Bytes) (s : Session) : Prop where
  trace : s.handle.m_trace_id = tid
  openTrace : ∀ sp ∈ s.handle.m_context, sp.trace_id = tid
  closedTrace : ∀ sp ∈ s.closed, sp.trace_id = tid
  spanIds : ∀ sp ∈ s.handle.m_context, sp.span_id.length = 8
  chain : ParentChain s.handle.m_context
  output : s.handle.m_serialized = (s.closed.map Span.encode).flatten

/-- The bytes of "s". -/
def str_s : Bytes := [115]

/-- The bytes of "k". -/
def str_k : Bytes := [107]

/-- The bytes of "v". -/
def str_v : Bytes := [118]

/-- The bytes of "r". -/
def str_r : Bytes := [114]

/-- The bytes of "root". -/
def str_root : Bytes := [114, 111, 111, 116]

/-- The bytes of "child". -/
def str_child : Bytes := [99, 104, 105, 108, 100]

/-- An environment for worked examples: the `k`-th draw is `k + 1`, the `k`-th
clock reading is `1000 + k`. -/
def World.sample : World :=
  { rng := fun k => k + 1, drawn := 0, clock := fun k => 1000 + k, read := 0 }

/-- The sample session after `enter_span("r")`: one open span. -/
def Session.sampleOpen : Session :=
  let r := enter_span (Session.new World.sample).handle (Session.new World.sample).world str_r
  { handle := r.1, world := r.2, closed := [] }

/-- The sample session after `enter_span("r")`, `exit_span()`: one closed span. -/
def Session.sampleClosed : Session :=
  (run (Session.new World.sample) [.enter_span str_r, .exit_span]).getD
    (Session.new World.sample)

/-- A handle with one closed span in its output, for worked examples. -/
def Handle.sample : Handle :=
  { m_context := [], m_arena := [], m_trace_id := bytes8 1 ++ bytes8 2,
    m_serialized := Span.encode { trace_id := bytes8 1 ++ bytes8 2, span_id := bytes8 3 } }

/-- Calls that build an attribute. -/
def Op.isAttribute : Op → Bool
  | .add_string_attribute _ _ => true
  | .add_bool_attribute _ _ => true
  | .add_int64_attribute _ _ => true
  | .add_double_attribute _ _ => true
  | _ => false

/-- A new handle in the sample environment. -/
def Handle.fresh : Handle := (Handle.new World.sample).1

/-- The session with the arena's unattached messages replaced; everything the
stack, the trace id, the output and the environment hold is kept. -/
def Session.withArena (s : Session) (arena : List KeyValue) : Session :=
  { s with handle := { s.handle with m_arena := arena } }

/-- The standard library's `default_random_engine` together with
`uniform_int_distribution<uint64_t>`, taken as a parameter: `default_state` is
the state of a default-constructed engine, which the library fixes once and
for all, and `draw` maps the state before a call of `g_dist(g_rng)` to the
value returned and the state after. -/
structure Engine where
  default_state : Nat
  draw : Nat → Nat × Nat

/-- The state of `g_rng` after `k` draws, starting from the default state. -/
def Engine.stateAfter (E : Engine) : Nat → Nat
  | 0 => E.default_state
  | k + 1 => (E.draw (E.stateAfter k)).2

/-- The value of the `k`-th draw of a default-constructed engine. -/
def Engine.stream (E : Engine) (k : Nat) : Nat := (E.draw (E.stateAfter k)).1

/-- The environment when the process starts. `static default_random_engine
g_rng;` is default-constructed and no statement of the file seeds it, so the
draws are those of the engine's default state; the clock is whatever the run
observes. -/
def World.atProcessStart (E : Engine) (clock : Nat → Nat) : World :=
  { rng := E.stream, drawn := 0, clock := clock, read := 0 }

/-- The identifiers a session holds: its trace id, and the span id and parent
span id of every open span and of every closed span. -/
def Session.ids (s : Session) : Bytes × List (Bytes × Bytes) × List (Bytes × Bytes) :=
  (s.handle.m_trace_id,
   s.handle.m_context.map (fun sp => (sp.span_id, sp.parent_span_id)),
   s.closed.map (fun sp => (sp.span_id, sp.parent_span_id)))

/-- Two sessions that hold the same identifiers and face the same generator
in the same state. -/
def Session.SameIds (s t : Session) : Prop :=
  s.world.rng = t.world.rng ∧ s.world.drawn = t.world.drawn ∧ s.ids = t.ids

/-- A linear congruential engine for worked examples. -/
def Engine.sample : Engine :=
  { default_state := 1, draw := fun x => (16807 * x % 2147483647, 16807 * x % 2147483647) }

/-! ## Reading the wire format -/

/-- The payload of one field on the wire, by wire type: varint (type 0),
64-bit (type 1), length-delimited (type 2), 32-bit (type 5). -/
inductive WireValue where
  | varint (n : Nat)
  | fixed64 (n : Nat)
  | bytes (payload : Bytes)
  | fixed32 (n : Nat)
  deriving DecidableEq, Repr

/-- One field on the wire: field number and payload. -/
structure RawField where
  number : Nat
  value : WireValue
  deriving DecidableEq, Repr

/-- Reads base-128 groups, least significant first, at most `fuel` of them. -/
def decodeVarintAux : Nat → Bytes → Option (Nat × Bytes)
  | 0, _ => none
  | _ + 1, [] => none
  | fuel + 1, b :: bs =>
    if b.val < 128 then some (b.val, bs)
    else
      match decodeVarintAux fuel bs with
      | none => none
      | some (hi, rest) => some (b.val - 128 + 128 * hi, rest)

/-- Reads a varint of at most ten bytes, truncated to 64 bits. -/
def decodeVarint (bs : Bytes) : Option (Nat × Bytes) :=
  match decodeVarintAux 10 bs with
  | none => none
  | some (n, rest) => some (n % 2 ^ 64, rest)

/-- The number whose little-endian bytes are given. -/
def leValue : Bytes → Nat
  | [] => 0
  | b :: bs => b.val + 256 * leValue bs

/-- Reads a fixed-width little-endian number. -/
def decodeFixed (width : Nat) (bs : Bytes) : Option (Nat × Bytes) :=
  if bs.length < width then none else some (leValue (bs.take width), bs.drop width)

/-- Reads one field: the key varint (field number times eight plus wire type)
and the payload its wire type announces. Group wire types are rejected. -/
def decodeField (bs : Bytes) : Option (RawField × Bytes) :=
  match decodeVarint bs with
  | none => none
  | some (key, rest) =>
    if key % 8 = 0 then
      match decodeVarint rest with
      | none => none
      | some (n, rest1) => some ({ number := key / 8, value := .varint n }, rest1)
    else if key % 8 = 1 then
      match decodeFixed 8 rest with
      | none => none
      | some (n, rest1) => some ({ number := key / 8, value := .fixed64 n }, rest1)
    else if key % 8 = 2 then
      match decodeVarint rest with
      | none => none
      | some (len, rest1) =>
        if rest1.length < len then none
        else some ({ number := key / 8, value := .bytes (rest1.take len) }, rest1.drop len)
    else if key % 8 = 5 then
      match decodeFixed 4 rest with
      | none => none
      | some (n, rest1) => some ({ number := key / 8, value := .fixed32 n }, rest1)
    else none

/-- Reads fields until the input is exhausted; every field takes at least one
byte, so a fuel of the input length suffices. -/
def parseFields : Nat → Bytes → Option (List RawField)
  | _, [] => some []
  | 0, _ :: _ => none
  | fuel + 1, b :: bs =>
    match decodeField (b :: bs) with
    | none => none
    | some (f, rest) =>
      match parseFields fuel rest with
      | none => none
      | some fs => some (f :: fs)

/-- Folds the fields of a message into an accumulator; a field that cannot be
interpreted makes the whole message fail. -/
def foldFields {α : Type} (merge : α → RawField → Option α) :
    α → List RawField → Option α
  | acc, [] => some acc
  | acc, f :: fs =>
    match merge acc f with
    | none => none
    | some acc1 => foldFields merge acc1 fs

/-- A UTF-8 continuation byte, `80..BF`. -/
def isContinuation (b : Byte) : Bool := decide (0x80 ≤ b.val) && decide (b.val ≤ 0xBF)

/-- The second byte of a three-byte sequence with lead byte `b0` (`E0..EF`):
`A0..BF` after `E0` (no overlong forms), `80..9F` after `ED` (no surrogates),
any continuation byte otherwise. -/
def isSecondOfThree (b0 b1 : Byte) : Bool :=
  if b0.val = 0xE0 then decide (0xA0 ≤ b1.val) && decide (b1.val ≤ 0xBF)
  else if b0.val = 0xED then decide (0x80 ≤ b1.val) && decide (b1.val ≤ 0x9F)
  else isContinuation b1

/-- The second byte of a four-byte sequence with lead byte `b0` (`F0..F4`):
`90..BF` after `F0` (no overlong forms), `80..8F` after `F4` (nothing above
`U+10FFFF`), any continuation byte otherwise. -/
def isSecondOfFour (b0 b1 : Byte) : Bool :=
  if b0.val = 0xF0 then decide (0x90 ≤ b1.val) && decide (b1.val ≤ 0xBF)
  else if b0.val = 0xF4 then decide (0x80 ≤ b1.val) && decide (b1.val ≤ 0x8F)
  else isContinuation b1

/-- Well-formed UTF-8 (RFC 3629): a sequence of one-byte (`00..7F`), two-byte
(lead `C2..DF`), three-byte (lead `E0..EF`) and four-byte (lead `F0..F4`)
encodings without overlong forms, surrogates or code points above `U+10FFFF`.
A proto3 parser accepts the payload of a `string` field only if it passes
this check. -/
def validUtf8 : Bytes → Bool
  | [] => true
  | b0 :: rest =>
    if b0.val < 0x80 then validUtf8 rest
    else if 0xC2 ≤ b0.val ∧ b0.val ≤ 0xDF then
      match rest with
      | b1 :: r1 => isContinuation b1 && validUtf8 r1
      | [] => false
    else if 0xE0 ≤ b0.val ∧ b0.val ≤ 0xEF then
      match rest with
      | b1 :: b2 :: r2 => isSecondOfThree b0 b1 && isContinuation b2 && validUtf8 r2
      | _ => false
    else if 0xF0 ≤ b0.val ∧ b0.val ≤ 0xF4 then
      match rest with
      | b1 :: b2 :: b3 :: r3 =>
        isSecondOfFour b0 b1 && isContinuation b2 && isContinuation b3 && validUtf8 r3
      | _ => false
    else false

/-- Modelled from the spec: a parser's treatment of one field of an `AnyValue`
(the member of the oneof read last wins; fields it does not know are skipped).
`string_value` is a proto3 `string`: a payload that is not valid UTF-8 makes
the parse fail. An `int64` is the two's complement reading of the varint. -/
def AnyValue.merge (acc : Option AnyValue) (f : RawField) : Option (Option AnyValue) :=
  match f.value with
  | .bytes p =>
    if f.number = 1 then
      if validUtf8 p then some (some (.string_value p)) else none
    else some acc
  | .varint n =>
    if f.number = 2 then some (some (.bool_value (n != 0)))
    else if f.number = 3 then
      some (some (.int_value (if n < 2 ^ 63 then (n : Int) else (n : Int) - 2 ^ 64)))
    else some acc
  | .fixed64 n => if f.number = 4 then some (some (.double_value n)) else some acc
  | .fixed32 _ => some acc

/-- Modelled from the spec: parser of an `AnyValue` message; the inner option
is `none` when no member of the oneof is set. -/
def AnyValue.decode (bs : Bytes) : Option (Option AnyValue) :=
  match parseFields bs.length bs with
  | none => none
  | some fs => foldFields AnyValue.merge none fs

/-- Modelled from the spec: a parser's treatment of one field of a `KeyValue`.
`key` is a proto3 `string`: a payload that is not valid UTF-8 makes the parse
fail, and so does a value that does not parse. -/
def KeyValue.merge (acc : KeyValue) (f : RawField) : Option KeyValue :=
  match f.value with
  | .bytes p =>
    if f.number = 1 then
      if validUtf8 p then some { acc with key := p } else none
    else if f.number = 2 then
      match AnyValue.decode p with
      | none => none
      | some v => some { acc with value := v }
    else some acc
  | _ => some acc

/-- Modelled from the spec: parser of a `KeyValue` message. -/
def KeyValue.decode (bs : Bytes) : Option KeyValue :=
  match parseFields bs.length bs with
  | none => none
  | some fs => foldFields KeyValue.merge {} fs

/-- Modelled from the spec: a parser's treatment of one field of a `Span`:
singular fields take the value read last and every attribute read is appended.
The ids (fields 1, 2, 4) are proto3 `bytes` and take any payload; `name`
(field 5) and `trace_state` (field 3, not kept by the model) are proto3
`string`s, and a payload that is not valid UTF-8 makes the parse fail, as does
an attribute that does not parse. The remaining fields of the schema, which
the module never writes, are skipped without inspection. -/
def Span.merge (acc : Span) (f : RawField) : Option Span :=
  match f.value with
  | .bytes p =>
    if f.number = 1 then some { acc with trace_id := p }
    else if f.number = 2 then some { acc with span_id := p }
    else if f.number = 3 then
      if validUtf8 p then some acc else none
    else if f.number = 4 then some { acc with parent_span_id := p }
    else if f.number = 5 then
      if validUtf8 p then some { acc with name := p } else none
    else if f.number = 9 then
      match KeyValue.decode p with
      | none => none
      | some kv => some { acc with attributes := acc.attributes ++ [kv] }
    else some acc
  | .fixed64 n =>
    if f.number = 7 then some { acc with start_time_unix_nano := n }
    else if f.number = 8 then some { acc with end_time_unix_nano := n }
    else some acc
  | _ => some acc

/-- Modelled from the spec: a standards-compliant parser of the `Span` message
(the counterpart of `Span.encode`, absent from the sources). It fails on
input that is not a sequence of fields, on a `string` field that is not valid
UTF-8 and on an attribute that does not parse. -/
def Span.decode (bs : Bytes) : Option Span :=
  match parseFields bs.length bs with
  | none => none
  | some fs => foldFields Span.merge {} fs

/-- Wire type of a payload. -/
def WireValue.wireType : WireValue → Nat
  | .varint _ => 0
  | .fixed64 _ => 1
  | .bytes _ => 2
  | .fixed32 _ => 5

/-- Wire bytes of one field. -/
def RawField.encode (f : RawField) : Bytes :=
  varint (f.number * 8 + f.value.wireType) ++
    (match f.value with
     | .varint n => varint n
     | .fixed64 n => bytes8 n
     | .bytes p => varint p.length ++ p
     | .fixed32 n => (List.range 4).map fun i => byte (n % 2 ^ 32 / 256 ^ i))

/-- Fields whose key, scalar or length fits in 64 bits (32-bit fields are not
used by the messages here). -/
def RawField.wf (f : RawField) : Bool :=
  decide (f.number * 8 + 7 < 2 ^ 64) &&
    (match f.value with
     | .varint n => decide (n < 2 ^ 64)
     | .fixed64 n => decide (n < 2 ^ 64)
     | .bytes p => decide (p.length < 2 ^ 64)
     | .fixed32 _ => false)

/-- The field an `AnyValue` is written as. -/
def AnyValue.toRaw : AnyValue → RawField
  | .string_value v => { number := 1, value := .bytes v }
  | .bool_value v => { number := 2, value := .varint (if v then 1 else 0) }
  | .int_value v => { number := 3, value := .varint (v % 2 ^ 64).toNat }
  | .double_value bits => { number := 4, value := .fixed64 bits }

/-- The fields a `KeyValue` is written as. -/
def KeyValue.toRaw (kv : KeyValue) : List RawField :=
  (if kv.key = [] then [] else [{ number := 1, value := .bytes kv.key }]) ++
    (match kv.value with
     | none => []
     | some v => [{ number := 2, value := .bytes v.encode }])

/-- The fields a `Span` is written as. -/
def Span.toRaw (sp : Span) : List RawField :=
  (if sp.trace_id = [] then [] else [{ number := 1, value := .bytes sp.trace_id }]) ++
  (if sp.span_id = [] then [] else [{ number := 2, value := .bytes sp.span_id }]) ++
  (if sp.parent_span_id = [] then [] else [{ number := 4, value := .bytes sp.parent_span_id }]) ++
  (if sp.name = [] then [] else [{ number := 5, value := .bytes sp.name }]) ++
  (if sp.start_time_unix_nano % 2 ^ 64 = 0 then []
   else [{ number := 7, value := .fixed64 sp.start_time_unix_nano }]) ++
  (if sp.end_time_unix_nano % 2 ^ 64 = 0 then []
   else [{ number := 8, value := .fixed64 sp.end_time_unix_nano }]) ++
  sp.attributes.map fun kv => { number := 9, value := .bytes kv.encode }

/-- Values in the range of their C++ type: a string shorter than `2 ^ 64`
bytes, an `int64_t`, the 64 bits of a `double`. -/
def AnyValue.wf : AnyValue → Bool
  | .string_value v => decide (v.length < 2 ^ 64)
  | .bool_value _ => true
  | .int_value v => decide (-(2 : Int) ^ 63 ≤ v) && decide (v < (2 : Int) ^ 63)
  | .double_value bits => decide (bits < 2 ^ 64)

/-- A `KeyValue` whose parts are in range and whose nested encodings are
shorter than `2 ^ 64` bytes. -/
def KeyValue.wf (kv : KeyValue) : Bool :=
  decide (kv.key.length < 2 ^ 64) &&
    (match kv.value with
     | none => true
     | some v => v.wf && decide (v.encode.length < 2 ^ 64))

/-- A `Span` whose strings are shorter than `2 ^ 64` bytes, whose timestamps
are `uint64_t` values and whose attributes are in range and encode to fewer
than `2 ^ 64` bytes each. -/
def Span.wf (sp : Span) : Bool :=
  decide (sp.trace_id.length < 2 ^ 64) && decide (sp.span_id.length < 2 ^ 64) &&
  decide (sp.parent_span_id.length < 2 ^ 64) && decide (sp.name.length < 2 ^ 64) &&
  decide (sp.start_time_unix_nano < 2 ^ 64) && decide (sp.end_time_unix_nano < 2 ^ 64) &&
  sp.attributes.all fun kv => kv.wf && decide (kv.encode.length < 2 ^ 64)

/-- The strings of an `AnyValue` are valid UTF-8. -/
def AnyValue.utf8 : AnyValue → Bool
  | .string_value v => validUtf8 v
  | _ => true

/-- The strings of a `KeyValue` (the key, and a string value) are valid UTF-8. -/
def KeyValue.utf8 (kv : KeyValue) : Bool :=
  validUtf8 kv.key &&
    (match kv.value with
     | none => true
     | some v => v.utf8)

/-- The strings of a `Span` (the name and the strings of its attributes) are
valid UTF-8. -/
def Span.utf8 (sp : Span) : Bool :=
  validUtf8 sp.name && sp.attributes.all fun kv => kv.utf8

/-- A one-byte name that is not valid UTF-8 (`FF` never occurs in UTF-8). -/
def str_invalid : Bytes := [255]

/-- A caller's buffer of 64 zero bytes, for worked examples. -/
def buf64 : Bytes := List.replicate 64 0

/-- The sample session after `enter_span` with the invalid name, `exit_span()`. -/
def Session.sampleInvalid : Session :=
  (run (Session.new World.sample) [.enter_span str_invalid, .exit_span]).getD
    (Session.new World.sample)

/-- The span that the sample session with the invalid name closes. -/
def Span.sampleInvalid : Span :=
  { trace_id := bytes8 1 ++ bytes8 2, span_id := bytes8 3, name := str_invalid,
    start_time_unix_nano := 1000, end_time_unix_nano := 1001 }

/-- The sample session after `enter_span("r")`, `exit_span()`, `enter_span("s")`:
one closed span and one open span. -/
def Session.sampleMixed : Session :=
  (run (Session.new World.sample) [.enter_span str_r, .exit_span, .enter_span str_s]).getD
    (Session.new World.sample)

/-- A span with one attribute of every kind, for worked examples. -/
def Span.sample : Span :=
  { trace_id := bytes8 1 ++ bytes8 2, span_id := bytes8 3, parent_span_id := bytes8 300,
    name := str_child, start_time_unix_nano := 1000, end_time_unix_nano := 70000,
    attributes :=
      [{ key := str_k, value := some (.string_value str_v) },
       { key := str_s, value := some (.bool_value true) },
       { key := str_r, value := some (.int_value (-5)) },
       { key := str_root, value := some (.double_value 4611686018427387904) },
       { key := [], value := none }] }

/-- The `enter_span` calls the spans of a session stem from, each call
identified by the index of the draw it consumed: `ost` lists the calls that
made the open spans (top first), `oc` the calls that made the closed spans (in
exit order); no call occurs twice, and each lies in the past. -/
structure Session.Origins (s : Session) (ost oc : List Nat) : Prop where
  stack : s.handle.m_context.map (fun sp => sp.span_id)
    = ost.map fun k => bytes8 (s.world.rng k % 2 ^ 64)
  closed : s.closed.map (fun sp => sp.span_id)
    = oc.map fun k => bytes8 (s.world.rng k % 2 ^ 64)
  nodup : (ost ++ oc).Nodup
  drawn : ∀ k ∈ ost ++ oc, k < s.world.drawn

/-! ## Basic facts -/

theorem bytes8_length (n : Nat) : (bytes8 n).length = 8 := by
  simp [bytes8]

theorem enter_span_eq (h : Handle) (w : World) (name : Bytes) :
    enter_span h w name =
      ({ h with m_context := enteredSpan h w name :: h.m_context },
       { w with read := w.read + 1, drawn := w.drawn + 1 }) := by
  cases hc : h.m_context with
  | nil =>
    simp [enter_span, enteredSpan, _has_parent_span, _now_unix_nano, _gen_random_span_id,
      _gen_random_8bytes, hc]
  | cons top rest =>
    simp [enter_span, enteredSpan, _has_parent_span, _get_parent_span_id, _now_unix_nano,
      _gen_random_span_id, _gen_random_8bytes, hc]

theorem exit_span_cons (h : Handle) (w : World) (top : Span) (rest : List Span)
    (hc : h.m_context = top :: rest) :
    exit_span h w =
      some ({ h with
              m_serialized :=
                h.m_serialized ++
                  Span.encode { top with end_time_unix_nano := w.clock w.read % 2 ^ 64 }
              m_context := rest },
            { w with read := w.read + 1 }) := by
  simp [exit_span, hc, _now_unix_nano, Span.AppendToString]

theorem exit_span_nil (h : Handle) (w : World) (hc : h.m_context = []) :
    exit_span h w = none := by
  simp [exit_span, hc]

theorem step_exit_cons (s : Session) (top : Span) (rest : List Span)
    (hc : s.handle.m_context = top :: rest) :
    step s .exit_span =
      some { handle :=
               { s.handle with
                 m_serialized :=
                   s.handle.m_serialized ++
                     Span.encode
                       { top with end_time_unix_nano := s.world.clock s.world.read % 2 ^ 64 }
                 m_context := rest }
             world := { s.world with read := s.world.read + 1 }
             closed :=
               s.closed ++
                 [{ top with end_time_unix_nano := s.world.clock s.world.read % 2 ^ 64 }] } := by
  simp [step, exit_span_cons s.handle s.world top rest hc, closingSpan, hc, _now_unix_nano]

theorem step_exit_nil (s : Session) (hc : s.handle.m_context = []) :
    step s .exit_span = none := by
  simp [step, exit_span_nil s.handle s.world hc]

/-- The only call without defined behaviour is `exit_span` on an empty stack. -/
theorem step_eq_none_iff (s : Session) (op : Op) :
    step s op = none ↔ op = .exit_span ∧ s.handle.m_context = [] := by
  cases op with
  | exit_span =>
    cases hc : s.handle.m_context with
    | nil => simp [step_exit_nil s hc]
    | cons top rest => simp [step_exit_cons s top rest hc]
  | _ => simp [step]

theorem run_cons (s : Session) (op : Op) (ops : List Op) :
    run s (op :: ops) = (step s op).bind fun s1 => run s1 ops := rfl

/-- Induction along a run: a property of the start that every defined call
preserves holds at the end. -/
theorem run_preserves (P : Session → Prop)
    (hstep : ∀ s op s1, P s → step s op = some s1 → P s1) :
    ∀ (ops : List Op) (s s1 : Session), P s → run s ops = some s1 → P s1 := by
  intro ops
  induction ops with
  | nil =>
    intro s s1 hP hrun
    simp [run] at hrun
    exact hrun ▸ hP
  | cons op ops ih =>
    intro s s1 hP hrun
    rw [run_cons] at hrun
    cases hs : step s op with
    | none => simp [hs] at hrun
    | some s2 =>
      simp [hs] at hrun
      exact ih s2 s1 (hstep s op s2 hP hs) hrun

theorem parentChain_tail (top : Span) (rest : List Span) (hc : ParentChain (top :: rest)) :
    ParentChain rest := by
  cases rest with
  | nil => trivial
  | cons below rest => exact hc.2

theorem parentChain_entered (h : Handle) (w : World) (name : Bytes)
    (hc : ParentChain h.m_context) :
    ParentChain (enteredSpan h w name :: h.m_context) := by
  cases hctx : h.m_context with
  | nil => simp [ParentChain, enteredSpan, hctx]
  | cons top rest =>
    rw [hctx] at hc
    exact ⟨by simp [enteredSpan, hctx], hc⟩

theorem inv_new (w : World) : Session.Inv (Session.new w).handle.m_trace_id (Session.new w) where
  trace := rfl
  openTrace := by simp [Session.new, Handle.new]
  closedTrace := by simp [Session.new]
  spanIds := by simp [Session.new, Handle.new]
  chain := by simp [Session.new, Handle.new, ParentChain]
  output := by simp [Session.new, Handle.new]

theorem inv_step (tid : Bytes) (s : Session) (op : Op) (s1 : Session)
    (hinv : Session.Inv tid s) (hs : step s op = some s1) : Session.Inv tid s1 := by
  obtain ⟨h1, h2, h3, h4, h5, h6⟩ := hinv
  cases op with
  | enter_span name =>
    simp only [step, enter_span_eq, Option.some.injEq] at hs
    subst hs
    refine ⟨h1, ?_, h3, ?_, parentChain_entered s.handle s.world name h5, h6⟩
    · intro sp hsp
      rcases List.mem_cons.mp hsp with rfl | hmem
      · exact h1
      · exact h2 sp hmem
    · intro sp hsp
      rcases List.mem_cons.mp hsp with rfl | hmem
      · exact bytes8_length _
      · exact h4 sp hmem
  | add_string_attribute name val =>
    simp only [step, add_string_attribute, Option.some.injEq] at hs
    subst hs
    exact ⟨h1, h2, h3, h4, h5, h6⟩
  | add_bool_attribute name val =>
    simp only [step, add_bool_attribute, Option.some.injEq] at hs
    subst hs
    exact ⟨h1, h2, h3, h4, h5, h6⟩
  | add_int64_attribute name val =>
    simp only [step, add_int64_attribute, Option.some.injEq] at hs
    subst hs
    exact ⟨h1, h2, h3, h4, h5, h6⟩
  | add_double_attribute name val =>
    simp only [step, add_double_attribute, Option.some.injEq] at hs
    subst hs
    exact ⟨h1, h2, h3, h4, h5, h6⟩
  | exit_span =>
    cases hc : s.handle.m_context with
    | nil => simp [step_exit_nil s hc] at hs
    | cons top rest =>
      rw [step_exit_cons s top rest hc, Option.some.injEq] at hs
      subst hs
      rw [hc] at h2 h4 h5
      refine ⟨h1, ?_, ?_, ?_, parentChain_tail top rest h5, ?_⟩
      · intro sp hsp
        exact h2 sp (List.mem_cons_of_mem _ hsp)
      · intro sp hsp
        rcases List.mem_append.mp hsp with hmem | hmem
        · exact h3 sp hmem
        · rw [List.mem_singleton.mp hmem]
          exact h2 top (List.mem_cons_self _ _)
      · intro sp hsp
        exact h4 sp (List.mem_cons_of_mem _ hsp)
      · simp [h6]
  | get_serialized_data buf buf_len =>
    have hh : (get_serialized_data s.handle buf buf_len).1 = s.handle := by
      unfold get_serialized_data
      split <;> rfl
    simp only [step, hh, Option.some.injEq] at hs
    subst hs
    exact ⟨h1, h2, h3, h4, h5, h6⟩

theorem inv_run (w : World) (ops : List Op) (s : Session)
    (hrun : run (Session.new w) ops = some s) :
    Session.Inv (Session.new w).handle.m_trace_id s :=
  run_preserves (Session.Inv (Session.new w).handle.m_trace_id)
    (fun s op s1 hP hs => inv_step _ s op s1 hP hs) ops (Session.new w) s (inv_new w) hrun

theorem run_sampleOpen :
    run (Session.new World.sample) [.enter_span str_r] = some Session.sampleOpen := rfl

/-! ## Attribute attachment -/

/-- C1 (the code departs from the claim): for every environment, after
`enter_span("s")`, `add_string_attribute("k", "v")`, `exit_span()` on a new
session the output is the encoding of one span named "s" whose attribute list
is empty; the pair k = "v" was built on the arena and attached to no span. -/
theorem c1_string_attribute_not_attached (w : World) :
    ∃ s sp,
      run (Session.new w) [.enter_span str_s, .add_string_attribute str_k str_v, .exit_span]
        = some s ∧
      s.closed = [sp] ∧
      s.handle.m_serialized = sp.encode ∧
      sp.name = str_s ∧
      sp.attributes = [] ∧
      s.handle.m_arena = [{ key := str_k, value := some (AnyValue.string_value str_v) }] :=
  ⟨_, _, rfl, rfl, rfl, rfl, rfl, rfl⟩

/-! ## Exit on an empty stack -/

/-- C2 (the code departs from the claim): on a new session, whose stack is
empty, `exit_span` reaches `m_context.top()` on an empty stack; the call has no
defined result, so neither an error value nor an unchanged state is delivered. -/
theorem c2_exit_span_on_empty_stack_undefined (w : World) :
    (Session.new w).handle.m_context = [] ∧
    exit_span (Session.new w).handle (Session.new w).world = none ∧
    run (Session.new w) [.exit_span] = none :=
  ⟨rfl, rfl, rfl⟩

/-! ## Parent links -/

/-- C3: in every state a session reaches, and for every name and environment,
the span pushed by `enter_span` has a non-empty `parent_span_id` exactly when
the stack was non-empty before the call, and then it is the `span_id` of the
span that was on top before the call. -/
theorem c3_enter_span_parent_link (w : World) (ops : List Op) (s : Session)
    (hrun : run (Session.new w) ops = some s) (w1 : World) (name : Bytes) :
    ∃ sp, (enter_span s.handle w1 name).1.m_context = sp :: s.handle.m_context ∧
      (sp.parent_span_id ≠ [] ↔ s.handle.m_context ≠ []) ∧
      (∀ top rest, s.handle.m_context = top :: rest → sp.parent_span_id = top.span_id) := by
  have hinv := inv_run w ops s hrun
  refine ⟨enteredSpan s.handle w1 name, by rw [enter_span_eq], ?_, ?_⟩
  · cases hc : s.handle.m_context with
    | nil => simp [enteredSpan, hc]
    | cons top rest =>
      have h8 : top.span_id.length = 8 := hinv.spanIds top (by simp [hc])
      have hne : top.span_id ≠ [] := by
        intro h0
        simp [h0] at h8
      simpa [enteredSpan, hc] using hne
  · intro top rest hc
    simp [enteredSpan, hc]

theorem c3_enter_span_parent_link_witness :
    run (Session.new World.sample) [.enter_span str_r] = some Session.sampleOpen ∧
    ∃ sp, (enter_span Session.sampleOpen.handle World.sample str_child).1.m_context
        = sp :: Session.sampleOpen.handle.m_context ∧
      (sp.parent_span_id ≠ [] ↔ Session.sampleOpen.handle.m_context ≠ []) ∧
      (∀ top rest, Session.sampleOpen.handle.m_context = top :: rest →
        sp.parent_span_id = top.span_id) :=
  ⟨run_sampleOpen,
   c3_enter_span_parent_link World.sample [.enter_span str_r] Session.sampleOpen
     run_sampleOpen World.sample str_child⟩

/-- C4: in every state reached from a new session, the bottom span of the
stack has an empty `parent_span_id` and every other span has `parent_span_id`
equal to the `span_id` (eight bytes) of the span directly beneath it; the span
that `exit_span` serializes carries the parent id of the top as it stood, which
is the id of the span beneath it (none for the bottom span). For
`enter("root")`, `enter("child")`, `exit()`, `exit()` the child is serialized
first with `parent_span_id` equal to the `span_id` of root, and root has none. -/
theorem c4_parent_chain (w : World) :
    (∀ ops s, run (Session.new w) ops = some s →
      ParentChain s.handle.m_context ∧
      (∀ sp ∈ s.handle.m_context, sp.span_id.length = 8) ∧
      ∀ w1 top rest, s.handle.m_context = top :: rest →
        ∃ (h1 : Handle) (w2 : World) (sp : Span), exit_span s.handle w1 = some (h1, w2) ∧
          h1.m_context = rest ∧
          h1.m_serialized = s.handle.m_serialized ++ sp.encode ∧
          sp.parent_span_id = top.parent_span_id ∧
          sp.parent_span_id =
            (match rest with
             | [] => []
             | below :: _ => below.span_id)) ∧
    (∃ s root child,
      run (Session.new w)
        [.enter_span str_root, .enter_span str_child,
         .exit_span, .exit_span] = some s ∧
      s.closed = [child, root] ∧
      s.handle.m_serialized = child.encode ++ root.encode ∧
      root.name = str_root ∧
      child.name = str_child ∧
      root.span_id.length = 8 ∧
      child.parent_span_id = root.span_id ∧
      root.parent_span_id = []) := by
  constructor
  · intro ops s hrun
    have hinv := inv_run w ops s hrun
    refine ⟨hinv.chain, hinv.spanIds, ?_⟩
    intro w1 top rest hc
    refine ⟨_, _, _, exit_span_cons s.handle w1 top rest hc, rfl, rfl, rfl, ?_⟩
    have hch := hinv.chain
    rw [hc] at hch
    cases rest with
    | nil => exact hch
    | cons below rest => exact hch.1
  · exact ⟨_, _, _, rfl, rfl, rfl, rfl, rfl, bytes8_length _, rfl, rfl⟩

theorem c4_parent_chain_witness :
    run (Session.new World.sample) [.enter_span str_r] = some Session.sampleOpen ∧
    ParentChain Session.sampleOpen.handle.m_context :=
  ⟨run_sampleOpen,
   ((c4_parent_chain World.sample).1 [.enter_span str_r] Session.sampleOpen run_sampleOpen).1⟩

/-! ## Trace id -/

/-- C5: after any sequence of calls on a new session, the trace id of the
session is the one generated by the constructor, no further call changes it,
and every span created by `enter_span`, whether still on the stack or already
serialized into the output, carries that trace id. -/
theorem c5_trace_id_constant (w : World) (ops : List Op) (s : Session)
    (hrun : run (Session.new w) ops = some s) :
    s.handle.m_trace_id = (Handle.new w).1.m_trace_id ∧
    (∀ op s1, step s op = some s1 → s1.handle.m_trace_id = s.handle.m_trace_id) ∧
    (∀ sp ∈ s.handle.m_context, sp.trace_id = s.handle.m_trace_id) ∧
    (∀ sp ∈ s.closed, sp.trace_id = s.handle.m_trace_id) ∧
    s.handle.m_serialized = (s.closed.map Span.encode).flatten := by
  have hinv := inv_run w ops s hrun
  refine ⟨hinv.trace, ?_, ?_, ?_, hinv.output⟩
  · intro op s1 hs
    rw [(inv_step _ s op s1 hinv hs).trace, hinv.trace]
  · intro sp hsp
    rw [hinv.openTrace sp hsp, hinv.trace]
  · intro sp hsp
    rw [hinv.closedTrace sp hsp, hinv.trace]

theorem c5_trace_id_constant_witness :
    run (Session.new World.sample) [.enter_span str_r] = some Session.sampleOpen ∧
    Session.sampleOpen.handle.m_trace_id = (Handle.new World.sample).1.m_trace_id ∧
    (∀ sp ∈ Session.sampleOpen.handle.m_context,
      sp.trace_id = Session.sampleOpen.handle.m_trace_id) :=
  ⟨run_sampleOpen,
   (c5_trace_id_constant World.sample [.enter_span str_r] Session.sampleOpen run_sampleOpen).1,
   (c5_trace_id_constant World.sample [.enter_span str_r] Session.sampleOpen
      run_sampleOpen).2.2.1⟩

/-! ## Copy-out -/

theorem get_serialized_data_handle (h : Handle) (buf : Bytes) (buf_len : Nat) :
    (get_serialized_data h buf buf_len).1 = h := by
  unfold get_serialized_data
  split <;> rfl

theorem get_serialized_data_of_le (h : Handle) (buf : Bytes) (buf_len : Nat)
    (hcap : h.m_serialized.length ≤ buf_len) :
    get_serialized_data h buf buf_len =
      (h, h.m_serialized.length, h.m_serialized ++ buf.drop h.m_serialized.length) := by
  simp [get_serialized_data, Nat.not_lt.mpr hcap]

theorem get_serialized_data_of_lt (h : Handle) (buf : Bytes) (buf_len : Nat)
    (hcap : buf_len < h.m_serialized.length) :
    get_serialized_data h buf buf_len = (h, 0, buf) := by
  simp [get_serialized_data, hcap]

/-- C6: when the capacity is at least the length of the output buffer,
`get_serialized_data` returns that length, the first that many bytes of the
caller's buffer are the output buffer in order, the rest of the caller's buffer
is as it was, and the handle (output buffer, stack and all) is unchanged. -/
theorem c6_get_serialized_data_copies_all (h : Handle) (buf : Bytes) (buf_len : Nat)
    (hcap : h.m_serialized.length ≤ buf_len) :
    (get_serialized_data h buf buf_len).2.1 = h.m_serialized.length ∧
    (get_serialized_data h buf buf_len).2.2.take (get_serialized_data h buf buf_len).2.1
      = h.m_serialized ∧
    (get_serialized_data h buf buf_len).2.2.drop h.m_serialized.length
      = buf.drop h.m_serialized.length ∧
    (get_serialized_data h buf buf_len).1 = h := by
  rw [get_serialized_data_of_le h buf buf_len hcap]
  simp

theorem c6_get_serialized_data_copies_all_witness :
    buf64.length = 64 ∧
    Handle.sample.m_serialized.length ≤ 64 ∧
    (get_serialized_data Handle.sample buf64 64).2.1 = Handle.sample.m_serialized.length ∧
    (get_serialized_data Handle.sample buf64 64).2.2.take
        (get_serialized_data Handle.sample buf64 64).2.1 = Handle.sample.m_serialized ∧
    (get_serialized_data Handle.sample buf64 64).2.2.drop Handle.sample.m_serialized.length
      = buf64.drop Handle.sample.m_serialized.length ∧
    (get_serialized_data Handle.sample buf64 64).1 = Handle.sample :=
  ⟨by decide, by decide,
   c6_get_serialized_data_copies_all Handle.sample buf64 64 (by decide)⟩

/-- C7: when the capacity is smaller than the length of the output buffer,
`get_serialized_data` returns 0 (the under-capacity report), the caller's
buffer is as it was and the handle is unchanged; a following call with a
capacity of at least the output length returns that length and delivers the
bytes that were buffered before the first call. -/
theorem c7_get_serialized_data_under_capacity (h : Handle) (buf : Bytes) (buf_len : Nat)
    (hcap : buf_len < h.m_serialized.length) :
    get_serialized_data h buf buf_len = (h, 0, buf) ∧
    ∀ cap2, h.m_serialized.length ≤ cap2 →
      (get_serialized_data (get_serialized_data h buf buf_len).1
          (get_serialized_data h buf buf_len).2.2 cap2).2.1 = h.m_serialized.length ∧
      (get_serialized_data (get_serialized_data h buf buf_len).1
          (get_serialized_data h buf buf_len).2.2 cap2).2.2.take h.m_serialized.length
        = h.m_serialized ∧
      (get_serialized_data (get_serialized_data h buf buf_len).1
          (get_serialized_data h buf buf_len).2.2 cap2).1 = h := by
  refine ⟨get_serialized_data_of_lt h buf buf_len hcap, ?_⟩
  intro cap2 hcap2
  rw [get_serialized_data_of_lt h buf buf_len hcap]
  simp only []
  rw [get_serialized_data_of_le h buf cap2 hcap2]
  simp

theorem c7_get_serialized_data_under_capacity_witness :
    buf64.length = 64 ∧
    0 < Handle.sample.m_serialized.length ∧
    get_serialized_data Handle.sample buf64 0 = (Handle.sample, 0, buf64) ∧
    (Handle.sample.m_serialized.length ≤ 64 ∧
      (get_serialized_data (get_serialized_data Handle.sample buf64 0).1
          (get_serialized_data Handle.sample buf64 0).2.2 64).2.2.take
            Handle.sample.m_serialized.length = Handle.sample.m_serialized) :=
  ⟨by decide, by decide,
   (c7_get_serialized_data_under_capacity Handle.sample buf64 0 (by decide)).1,
   by decide,
   ((c7_get_serialized_data_under_capacity Handle.sample buf64 0 (by decide)).2 64
      (by decide)).2.1⟩

/-- C8 (the claim fails here): on a new handle, whose output is empty, a call
with capacity 0 succeeds (0 is not smaller than the output length 0) and yet
returns 0 with the buffer untouched, so returning 0 is not equivalent to being
under capacity; the failed call on a handle with buffered output and capacity 0
yields the very same result value. -/
theorem c8_zero_return_ambiguous :
    ¬ ((get_serialized_data (Handle.new World.sample).1 [] 0).2.1 = 0 ↔
        0 < (Handle.new World.sample).1.m_serialized.length) ∧
    0 < Handle.sample.m_serialized.length ∧
    (get_serialized_data (Handle.new World.sample).1 [] 0).2
      = (get_serialized_data Handle.sample [] 0).2 := by
  refine ⟨?_, by decide, ?_⟩
  · intro hiff
    exact absurd (hiff.mp rfl) (by decide)
  · rfl

/-- C8 (amended): for every handle, buffer and capacity, `get_serialized_data`
returns 0, and likewise returns 0 with the caller's buffer untouched, exactly
when the capacity is smaller than the output length or the output is empty. -/
theorem c8_zero_return_iff (h : Handle) (buf : Bytes) (buf_len : Nat) :
    ((get_serialized_data h buf buf_len).2.1 = 0 ↔
      (buf_len < h.m_serialized.length ∨ h.m_serialized.length = 0)) ∧
    ((get_serialized_data h buf buf_len).2 = (0, buf) ↔
      (buf_len < h.m_serialized.length ∨ h.m_serialized.length = 0)) := by
  by_cases hcap : buf_len < h.m_serialized.length
  · simp [get_serialized_data_of_lt h buf buf_len hcap, hcap]
  · rw [get_serialized_data_of_le h buf buf_len (Nat.not_lt.mp hcap)]
    constructor
    · simp [hcap]
    · constructor
      · intro heq
        exact Or.inr (congrArg Prod.fst heq)
      · intro hor
        rcases hor with hlt | hzero
        · exact absurd hlt hcap
        · have hnil : h.m_serialized = [] := List.length_eq_zero.mp hzero
          simp [hnil]

/-! ## Closing a span -/

/-- C9: on a handle whose stack is `top :: rest`, `exit_span` succeeds; the
stack becomes `rest`, the output becomes the previous output followed by the
encoding of `top` with `end_time_unix_nano` set to the clock reading of the
call and every other field as it was; arena and trace id are unchanged and one
clock reading is consumed. -/
theorem c9_exit_span_closes_top (h : Handle) (w : World) (top : Span) (rest : List Span)
    (hc : h.m_context = top :: rest) :
    exit_span h w =
      some ({ m_context := rest
              m_arena := h.m_arena
              m_trace_id := h.m_trace_id
              m_serialized :=
                h.m_serialized ++
                  Span.encode
                    { trace_id := top.trace_id
                      span_id := top.span_id
                      parent_span_id := top.parent_span_id
                      name := top.name
                      start_time_unix_nano := top.start_time_unix_nano
                      end_time_unix_nano := (_now_unix_nano w).1
                      attributes := top.attributes } },
            (_now_unix_nano w).2) := by
  rw [exit_span_cons h w top rest hc]
  rfl

theorem c9_exit_span_closes_top_witness :
    Session.sampleOpen.handle.m_context =
      [enteredSpan (Session.new World.sample).handle (Session.new World.sample).world str_r] ∧
    (exit_span Session.sampleOpen.handle Session.sampleOpen.world).map
        (fun r => (r.1.m_context, r.1.m_serialized)) =
      some ([], Span.encode
        { trace_id := bytes8 1 ++ bytes8 2, span_id := bytes8 3, name := str_r,
          start_time_unix_nano := 1000, end_time_unix_nano := 1001 }) :=
  ⟨rfl, by
    rw [c9_exit_span_closes_top Session.sampleOpen.handle Session.sampleOpen.world
      (enteredSpan (Session.new World.sample).handle (Session.new World.sample).world str_r)
      [] rfl]
    rfl⟩

/-! ## The output buffer -/

theorem run_counts :
    ∀ (ops : List Op) (s s1 : Session), run s ops = some s1 →
      s1.closed.length = s.closed.length + ops.countP Op.isExit ∧
      s1.handle.m_context.length + s1.closed.length =
        s.handle.m_context.length + s.closed.length + ops.countP Op.isEnter := by
  intro ops
  induction ops with
  | nil =>
    intro s s1 hrun
    simp [run] at hrun
    subst hrun
    simp
  | cons op ops ih =>
    intro s s1 hrun
    rw [run_cons] at hrun
    cases hs : step s op with
    | none => simp [hs] at hrun
    | some s2 =>
      simp [hs] at hrun
      obtain ⟨ih1, ih2⟩ := ih s2 s1 hrun
      cases op with
      | enter_span name =>
        simp only [step, enter_span_eq, Option.some.injEq] at hs
        subst hs
        simp [Op.isExit, Op.isEnter] at ih1 ih2 ⊢
        omega
      | exit_span =>
        cases hc : s.handle.m_context with
        | nil => simp [step_exit_nil s hc] at hs
        | cons top rest =>
          rw [step_exit_cons s top rest hc, Option.some.injEq] at hs
          subst hs
          simp [Op.isExit, Op.isEnter] at ih1 ih2 ⊢
          omega
      | add_string_attribute name val =>
        simp only [step, add_string_attribute, Option.some.injEq] at hs
        subst hs
        simpa [Op.isExit, Op.isEnter] using And.intro ih1 ih2
      | add_bool_attribute name val =>
        simp only [step, add_bool_attribute, Option.some.injEq] at hs
        subst hs
        simpa [Op.isExit, Op.isEnter] using And.intro ih1 ih2
      | add_int64_attribute name val =>
        simp only [step, add_int64_attribute, Option.some.injEq] at hs
        subst hs
        simpa [Op.isExit, Op.isEnter] using And.intro ih1 ih2
      | add_double_attribute name val =>
        simp only [step, add_double_attribute, Option.some.injEq] at hs
        subst hs
        simpa [Op.isExit, Op.isEnter] using And.intro ih1 ih2
      | get_serialized_data buf buf_len =>
        simp only [step, get_serialized_data_handle, Option.some.injEq] at hs
        subst hs
        simpa [Op.isExit, Op.isEnter] using And.intro ih1 ih2

/-- C10: after any sequence of calls on a new session, the output buffer is
the concatenation, with nothing before, between or after, of the encodings of
the spans closed so far in the order of their `exit_span` calls; there is one
closed span per `exit_span` call, and the spans entered and not yet closed are
on the stack and contribute no bytes. For two nested spans the inner one comes
first in the output. -/
theorem c10_output_is_concatenation (w : World) (ops : List Op) (s : Session)
    (hrun : run (Session.new w) ops = some s) :
    s.handle.m_serialized = (s.closed.map Span.encode).flatten ∧
    s.closed.length = ops.countP Op.isExit ∧
    s.handle.m_context.length + s.closed.length = ops.countP Op.isEnter ∧
    (∀ top rest s1, s.handle.m_context = top :: rest → step s .exit_span = some s1 →
      s1.closed = s.closed ++ [{ top with end_time_unix_nano := (_now_unix_nano s.world).1 }] ∧
      s1.handle.m_serialized = s.handle.m_serialized ++
        Span.encode { top with end_time_unix_nano := (_now_unix_nano s.world).1 }) := by
  have hinv := inv_run w ops s hrun
  have hcnt := run_counts ops (Session.new w) s hrun
  refine ⟨hinv.output, ?_, ?_, ?_⟩
  · simpa [Session.new] using hcnt.1
  · simpa [Session.new, Handle.new] using hcnt.2
  · intro top rest s1 hc hs
    rw [step_exit_cons s top rest hc, Option.some.injEq] at hs
    subst hs
    exact ⟨rfl, rfl⟩

theorem c10_output_is_concatenation_witness :
    run (Session.new World.sample) [.enter_span str_r, .exit_span]
      = some Session.sampleClosed ∧
    Session.sampleClosed.handle.m_serialized
      = (Session.sampleClosed.closed.map Span.encode).flatten ∧
    Session.sampleClosed.closed.length = [Op.enter_span str_r, Op.exit_span].countP Op.isExit :=
  ⟨rfl,
   (c10_output_is_concatenation World.sample [.enter_span str_r, .exit_span]
      Session.sampleClosed rfl).1,
   (c10_output_is_concatenation World.sample [.enter_span str_r, .exit_span]
      Session.sampleClosed rfl).2.1⟩

/-! ## Append-only output -/

/-- C11: every single call that is defined (any call, `exit_span` only with an
open span) yields a next state whose output buffer is the previous output
buffer followed by the bytes the call added: the previous buffer is an initial
segment of the new one, its length does not decrease and the bytes already
there are unchanged. -/
theorem c11_output_append_only (s : Session) (op : Op)
    (hopen : op = Op.exit_span → s.handle.m_context ≠ []) :
    ∃ s1 added, step s op = some s1 ∧
      s1.handle.m_serialized = s.handle.m_serialized ++ added ∧
      s.handle.m_serialized <+: s1.handle.m_serialized ∧
      s.handle.m_serialized.length ≤ s1.handle.m_serialized.length ∧
      s1.handle.m_serialized.take s.handle.m_serialized.length = s.handle.m_serialized := by
  have key : ∃ s1 added, step s op = some s1 ∧
      s1.handle.m_serialized = s.handle.m_serialized ++ added := by
    cases op with
    | enter_span name => exact ⟨_, [], rfl, by simp [enter_span_eq]⟩
    | add_string_attribute name val => exact ⟨_, [], rfl, by simp [add_string_attribute]⟩
    | add_bool_attribute name val => exact ⟨_, [], rfl, by simp [add_bool_attribute]⟩
    | add_int64_attribute name val => exact ⟨_, [], rfl, by simp [add_int64_attribute]⟩
    | add_double_attribute name val => exact ⟨_, [], rfl, by simp [add_double_attribute]⟩
    | exit_span =>
      cases hc : s.handle.m_context with
      | nil => exact absurd hc (hopen rfl)
      | cons top rest => exact ⟨_, _, step_exit_cons s top rest hc, rfl⟩
    | get_serialized_data buf buf_len =>
      exact ⟨_, [], rfl, by simp [get_serialized_data_handle]⟩
  obtain ⟨s1, added, hs, hadd⟩ := key
  refine ⟨s1, added, hs, hadd, ⟨added, hadd.symm⟩, ?_, ?_⟩
  · simp [hadd]
  · simp [hadd]

theorem c11_output_append_only_witness :
    Session.sampleOpen.handle.m_context ≠ [] ∧
    ∃ s1 added, step Session.sampleOpen Op.exit_span = some s1 ∧
      s1.handle.m_serialized = Session.sampleOpen.handle.m_serialized ++ added ∧
      Session.sampleOpen.handle.m_serialized <+: s1.handle.m_serialized ∧
      Session.sampleOpen.handle.m_serialized.length ≤ s1.handle.m_serialized.length ∧
      s1.handle.m_serialized.take Session.sampleOpen.handle.m_serialized.length
        = Session.sampleOpen.handle.m_serialized :=
  ⟨by decide, c11_output_append_only Session.sampleOpen Op.exit_span (fun _ => by decide)⟩

/-! ## Attributes without an open span -/

/-- C12 (the claim fails here): on a new session, whose stack is empty, the
call `add_string_attribute("k", "v")` is defined and returns normally; stack
and output are as before, and the handle is updated in the same way as a handle
with an open span is (one unattached `KeyValue` more on the arena), so no error
result sets the two cases apart. -/
theorem c12_attribute_without_span_no_error :
    (Session.new World.sample).handle.m_context = [] ∧
    (step (Session.new World.sample) (Op.add_string_attribute str_k str_v)).isSome = true ∧
    add_string_attribute Handle.fresh str_k str_v =
      { Handle.fresh with
        m_arena := Handle.fresh.m_arena ++
          [{ key := str_k, value := some (AnyValue.string_value str_v) }] } ∧
    Session.sampleOpen.handle.m_context ≠ [] ∧
    add_string_attribute Session.sampleOpen.handle str_k str_v =
      { Session.sampleOpen.handle with
        m_arena := Session.sampleOpen.handle.m_arena ++
          [{ key := str_k, value := some (AnyValue.string_value str_v) }] } :=
  ⟨rfl, rfl, rfl, by decide, rfl⟩

/-- C12 (amended): on a handle with no open span each of the four attribute
calls is defined and returns normally, with no error result; the stack is
still empty and the trace id and the output buffer are unchanged. -/
theorem c12_attribute_without_span_is_silent (s : Session) (name sval : Bytes)
    (bval ival : Int) (dval : Nat) (hc : s.handle.m_context = []) :
    (∃ s1, step s (Op.add_string_attribute name sval) = some s1 ∧
      s1.handle.m_context = [] ∧ s1.handle.m_trace_id = s.handle.m_trace_id ∧
      s1.handle.m_serialized = s.handle.m_serialized) ∧
    (∃ s1, step s (Op.add_bool_attribute name bval) = some s1 ∧
      s1.handle.m_context = [] ∧ s1.handle.m_trace_id = s.handle.m_trace_id ∧
      s1.handle.m_serialized = s.handle.m_serialized) ∧
    (∃ s1, step s (Op.add_int64_attribute name ival) = some s1 ∧
      s1.handle.m_context = [] ∧ s1.handle.m_trace_id = s.handle.m_trace_id ∧
      s1.handle.m_serialized = s.handle.m_serialized) ∧
    (∃ s1, step s (Op.add_double_attribute name dval) = some s1 ∧
      s1.handle.m_context = [] ∧ s1.handle.m_trace_id = s.handle.m_trace_id ∧
      s1.handle.m_serialized = s.handle.m_serialized) :=
  ⟨⟨_, rfl, hc, rfl, rfl⟩, ⟨_, rfl, hc, rfl, rfl⟩, ⟨_, rfl, hc, rfl, rfl⟩,
   ⟨_, rfl, hc, rfl, rfl⟩⟩

theorem c12_attribute_without_span_is_silent_witness :
    (Session.new World.sample).handle.m_context = [] ∧
    ∃ s1, step (Session.new World.sample) (Op.add_string_attribute str_k str_v) = some s1 ∧
      s1.handle.m_context = [] ∧
      s1.handle.m_trace_id = (Session.new World.sample).handle.m_trace_id ∧
      s1.handle.m_serialized = (Session.new World.sample).handle.m_serialized :=
  ⟨rfl,
   (c12_attribute_without_span_is_silent (Session.new World.sample) str_k str_v 1 1 0 rfl).1⟩

/-! ## Identifier generation -/

/-- C14: for every state of the generator, the trace id is the eight bytes of
the next draw followed by the eight bytes of the draw after it (16 bytes, two
draws consumed), the span id is the eight bytes of the next draw (8 bytes, one
draw consumed); the constructor consumes exactly two draws for its trace id and
`enter_span` exactly one, whose bytes are the span id of the pushed span. -/
theorem c14_id_generation (w : World) (h : Handle) (name : Bytes) :
    (_gen_random_8bytes w).1 = w.rng w.drawn % 2 ^ 64 ∧
    (_gen_random_trace_id w).1 =
      bytes8 (w.rng w.drawn % 2 ^ 64) ++ bytes8 (w.rng (w.drawn + 1) % 2 ^ 64) ∧
    (_gen_random_trace_id w).1.length = 16 ∧
    (_gen_random_trace_id w).2.drawn = w.drawn + 2 ∧
    (_gen_random_span_id w).1 = bytes8 (w.rng w.drawn % 2 ^ 64) ∧
    (_gen_random_span_id w).1.length = 8 ∧
    (_gen_random_span_id w).2.drawn = w.drawn + 1 ∧
    (Handle.new w).1.m_trace_id = (_gen_random_trace_id w).1 ∧
    (Handle.new w).2.drawn = w.drawn + 2 ∧
    (enter_span h w name).2.drawn = w.drawn + 1 ∧
    (∃ sp, (enter_span h w name).1.m_context = sp :: h.m_context ∧
      sp.span_id = (_gen_random_span_id w).1) := by
  refine ⟨rfl, rfl, ?_, rfl, rfl, ?_, rfl, rfl, rfl, ?_, ?_⟩
  · simp [_gen_random_trace_id, _gen_random_8bytes, bytes8_length]
  · simp [_gen_random_span_id, _gen_random_8bytes, bytes8_length]
  · rw [enter_span_eq]
  · exact ⟨enteredSpan h w name, by rw [enter_span_eq], rfl⟩

/-! ## New sessions -/

/-- C16: a new session has an empty stack and an empty output buffer; for
every capacity and caller buffer `get_serialized_data` returns 0 and leaves the
caller's buffer and the handle as they were; the first `enter_span` pushes a
span with an empty `parent_span_id` onto the empty stack. -/
theorem c16_new_session_is_empty (w w1 : World) (buf : Bytes) (buf_len : Nat) (name : Bytes) :
    (Handle.new w).1.m_context = [] ∧
    (Handle.new w).1.m_serialized = [] ∧
    get_serialized_data (Handle.new w).1 buf buf_len = ((Handle.new w).1, 0, buf) ∧
    (∃ sp, (enter_span (Handle.new w).1 w1 name).1.m_context = [sp] ∧
      sp.parent_span_id = [] ∧ sp.name = name) := by
  refine ⟨rfl, rfl, ?_, ⟨_, rfl, rfl, rfl⟩⟩
  simp [get_serialized_data, Handle.new]

/-! ## Attributes are discarded -/

theorem withArena_withArena (s : Session) (a b : List KeyValue) :
    (s.withArena a).withArena b = s.withArena b := rfl

theorem step_attribute_withArena (s s1 : Session) (op : Op) (hattr : op.isAttribute = true)
    (hs : step s op = some s1) : ∃ a, s1 = s.withArena a := by
  cases op with
  | add_string_attribute name val =>
    simp only [step, Option.some.injEq] at hs
    exact ⟨_, hs.symm⟩
  | add_bool_attribute name val =>
    simp only [step, Option.some.injEq] at hs
    exact ⟨_, hs.symm⟩
  | add_int64_attribute name val =>
    simp only [step, Option.some.injEq] at hs
    exact ⟨_, hs.symm⟩
  | add_double_attribute name val =>
    simp only [step, Option.some.injEq] at hs
    exact ⟨_, hs.symm⟩
  | enter_span name => simp [Op.isAttribute] at hattr
  | exit_span => simp [Op.isAttribute] at hattr
  | get_serialized_data buf buf_len => simp [Op.isAttribute] at hattr

theorem step_withArena (s : Session) (a : List KeyValue) (op : Op)
    (hattr : op.isAttribute = false) :
    step (s.withArena a) op = (step s op).map fun s1 => s1.withArena a := by
  cases op with
  | add_string_attribute name val => simp [Op.isAttribute] at hattr
  | add_bool_attribute name val => simp [Op.isAttribute] at hattr
  | add_int64_attribute name val => simp [Op.isAttribute] at hattr
  | add_double_attribute name val => simp [Op.isAttribute] at hattr
  | enter_span name =>
    simp only [step, enter_span_eq, Option.map_some']
    rfl
  | exit_span =>
    cases hc : s.handle.m_context with
    | nil =>
      have hc1 : (s.withArena a).handle.m_context = [] := hc
      rw [step_exit_nil s hc, step_exit_nil _ hc1]
      rfl
    | cons top rest =>
      have hc1 : (s.withArena a).handle.m_context = top :: rest := hc
      rw [step_exit_cons s top rest hc, step_exit_cons _ top rest hc1]
      rfl
  | get_serialized_data buf buf_len =>
    simp only [step, get_serialized_data_handle, Option.map_some']

theorem run_without_attributes :
    ∀ (ops : List Op) (s s1 : Session) (a : List KeyValue), run s ops = some s1 →
      ∃ a1, run (s.withArena a) (ops.filter fun op => !op.isAttribute)
        = some (s1.withArena a1) := by
  intro ops
  induction ops with
  | nil =>
    intro s s1 a hrun
    simp [run] at hrun
    subst hrun
    exact ⟨a, rfl⟩
  | cons op ops ih =>
    intro s s1 a hrun
    rw [run_cons] at hrun
    cases hs : step s op with
    | none => simp [hs] at hrun
    | some s2 =>
      simp [hs] at hrun
      cases hattr : op.isAttribute with
      | true =>
        obtain ⟨a2, ha2⟩ := step_attribute_withArena s s2 op hattr hs
        obtain ⟨a1, ha1⟩ := ih s2 s1 a hrun
        rw [ha2, withArena_withArena] at ha1
        exact ⟨a1, by simpa [List.filter, hattr] using ha1⟩
      | false =>
        obtain ⟨a1, ha1⟩ := ih s2 s1 a hrun
        refine ⟨a1, ?_⟩
        simp only [List.filter, hattr, Bool.not_false, run_cons]
        rw [step_withArena s a op hattr, hs]
        exact ha1

theorem no_attributes_run (w : World) (ops : List Op) (s : Session)
    (hrun : run (Session.new w) ops = some s) :
    (∀ sp ∈ s.handle.m_context, sp.attributes = []) ∧
      (∀ sp ∈ s.closed, sp.attributes = []) := by
  refine run_preserves
    (fun s => (∀ sp ∈ s.handle.m_context, sp.attributes = []) ∧
      (∀ sp ∈ s.closed, sp.attributes = []))
    ?_ ops (Session.new w) s ?_ hrun
  · intro s op s1 hP hs
    obtain ⟨h1, h2⟩ := hP
    cases hattr : op.isAttribute with
    | true =>
      obtain ⟨a, ha⟩ := step_attribute_withArena s s1 op hattr hs
      subst ha
      exact ⟨h1, h2⟩
    | false =>
      cases op with
      | add_string_attribute name val => simp [Op.isAttribute] at hattr
      | add_bool_attribute name val => simp [Op.isAttribute] at hattr
      | add_int64_attribute name val => simp [Op.isAttribute] at hattr
      | add_double_attribute name val => simp [Op.isAttribute] at hattr
      | enter_span name =>
        simp only [step, enter_span_eq, Option.some.injEq] at hs
        subst hs
        refine ⟨?_, h2⟩
        intro sp hsp
        rcases List.mem_cons.mp hsp with rfl | hmem
        · rfl
        · exact h1 sp hmem
      | exit_span =>
        cases hc : s.handle.m_context with
        | nil => simp [step_exit_nil s hc] at hs
        | cons top rest =>
          rw [step_exit_cons s top rest hc, Option.some.injEq] at hs
          subst hs
          rw [hc] at h1
          refine ⟨fun sp hsp => h1 sp (List.mem_cons_of_mem _ hsp), ?_⟩
          intro sp hsp
          rcases List.mem_append.mp hsp with hmem | hmem
          · exact h2 sp hmem
          · rw [List.mem_singleton.mp hmem]
            exact h1 top (List.mem_cons_self _ _)
      | get_serialized_data buf buf_len =>
        simp only [step, get_serialized_data_handle, Option.some.injEq] at hs
        subst hs
        exact ⟨h1, h2⟩
  · exact ⟨by simp [Session.new, Handle.new], by simp [Session.new]⟩

/-- C18: each of the four attribute calls, for every key, value and handle
(an empty stack included), leaves the span stack with every field of every
open span, the trace id and the output buffer as they were. Hence after any
sequence of calls on a new session every span serialized so far and every open
span has an empty attribute list, and the same sequence with the attribute
calls removed, run in the same environment, ends with the same output buffer,
stack, closed spans and environment. -/
theorem c18_attributes_discarded :
    (∀ (h : Handle) (name sval : Bytes) (bval ival : Int) (dval : Nat),
      ((add_string_attribute h name sval).m_context = h.m_context ∧
        (add_string_attribute h name sval).m_trace_id = h.m_trace_id ∧
        (add_string_attribute h name sval).m_serialized = h.m_serialized) ∧
      ((add_bool_attribute h name bval).m_context = h.m_context ∧
        (add_bool_attribute h name bval).m_trace_id = h.m_trace_id ∧
        (add_bool_attribute h name bval).m_serialized = h.m_serialized) ∧
      ((add_int64_attribute h name ival).m_context = h.m_context ∧
        (add_int64_attribute h name ival).m_trace_id = h.m_trace_id ∧
        (add_int64_attribute h name ival).m_serialized = h.m_serialized) ∧
      ((add_double_attribute h name dval).m_context = h.m_context ∧
        (add_double_attribute h name dval).m_trace_id = h.m_trace_id ∧
        (add_double_attribute h name dval).m_serialized = h.m_serialized)) ∧
    (∀ (w : World) (ops : List Op) (s : Session), run (Session.new w) ops = some s →
      (∀ sp ∈ s.closed, sp.attributes = []) ∧
      (∀ sp ∈ s.handle.m_context, sp.attributes = []) ∧
      ∃ s1, run (Session.new w) (ops.filter fun op => !op.isAttribute) = some s1 ∧
        s1.handle.m_serialized = s.handle.m_serialized ∧
        s1.handle.m_context = s.handle.m_context ∧
        s1.handle.m_trace_id = s.handle.m_trace_id ∧
        s1.closed = s.closed ∧
        s1.world = s.world) := by
  constructor
  · intro h name sval bval ival dval
    exact ⟨⟨rfl, rfl, rfl⟩, ⟨rfl, rfl, rfl⟩, ⟨rfl, rfl, rfl⟩, ⟨rfl, rfl, rfl⟩⟩
  · intro w ops s hrun
    obtain ⟨hopen, hclosed⟩ := no_attributes_run w ops s hrun
    obtain ⟨a1, ha1⟩ := run_without_attributes ops (Session.new w) s [] hrun
    exact ⟨hclosed, hopen, s.withArena a1, ha1, rfl, rfl, rfl, rfl, rfl⟩

theorem c18_attributes_discarded_witness :
    run (Session.new World.sample)
      [Op.enter_span str_s, Op.add_string_attribute str_k str_v, Op.exit_span]
      = some ((run (Session.new World.sample)
          [Op.enter_span str_s, Op.add_string_attribute str_k str_v, Op.exit_span]).getD
            (Session.new World.sample)) ∧
    ∀ sp ∈ ((run (Session.new World.sample)
          [Op.enter_span str_s, Op.add_string_attribute str_k str_v, Op.exit_span]).getD
            (Session.new World.sample)).closed, sp.attributes = [] :=
  ⟨rfl, (c18_attributes_discarded.2 World.sample
      [Op.enter_span str_s, Op.add_string_attribute str_k str_v, Op.exit_span] _ rfl).1⟩

/-! ## Seeding -/

theorem sameIds_step (s t : Session) (op : Op) (hst : Session.SameIds s t) :
    match step s op, step t op with
    | some s1, some t1 => Session.SameIds s1 t1
    | none, none => True
    | _, _ => False := by
  obtain ⟨hrng, hdrawn, hids⟩ := hst
  simp only [Session.ids, Prod.mk.injEq] at hids
  obtain ⟨htid, hctx, hclosed⟩ := hids
  cases op with
  | enter_span name =>
    simp only [step, enter_span_eq]
    refine ⟨hrng, by simp [hdrawn], ?_⟩
    simp only [Session.ids, Prod.mk.injEq, List.map_cons, List.cons.injEq]
    refine ⟨htid, ⟨⟨?_, ?_⟩, hctx⟩, hclosed⟩
    · simp [enteredSpan, hrng, hdrawn]
    · cases hs : s.handle.m_context with
      | nil =>
        cases ht : t.handle.m_context with
        | nil => simp [enteredSpan, hs, ht]
        | cons b bs => simp [hs, ht] at hctx
      | cons a as =>
        cases ht : t.handle.m_context with
        | nil => simp [hs, ht] at hctx
        | cons b bs =>
          simp [hs, ht] at hctx
          simp [enteredSpan, hs, ht, hctx.1.1]
  | add_string_attribute name val =>
    exact ⟨hrng, hdrawn, by simp [Session.ids, add_string_attribute, htid, hctx, hclosed]⟩
  | add_bool_attribute name val =>
    exact ⟨hrng, hdrawn, by simp [Session.ids, add_bool_attribute, htid, hctx, hclosed]⟩
  | add_int64_attribute name val =>
    exact ⟨hrng, hdrawn, by simp [Session.ids, add_int64_attribute, htid, hctx, hclosed]⟩
  | add_double_attribute name val =>
    exact ⟨hrng, hdrawn, by simp [Session.ids, add_double_attribute, htid, hctx, hclosed]⟩
  | get_serialized_data buf buf_len =>
    simp only [step, get_serialized_data_handle]
    exact ⟨hrng, hdrawn, by simp [Session.ids, htid, hctx, hclosed]⟩
  | exit_span =>
    cases hs : s.handle.m_context with
    | nil =>
      cases ht : t.handle.m_context with
      | nil => simp [step_exit_nil s hs, step_exit_nil t ht]
      | cons b bs => simp [hs, ht] at hctx
    | cons a as =>
      cases ht : t.handle.m_context with
      | nil => simp [hs, ht] at hctx
      | cons b bs =>
        simp only [hs, ht, List.map_cons, List.cons.injEq, Prod.mk.injEq] at hctx
        rw [step_exit_cons s a as hs, step_exit_cons t b bs ht]
        refine ⟨hrng, hdrawn, ?_⟩
        simp [Session.ids, htid, hctx.2, hclosed, hctx.1.1, hctx.1.2]

theorem sameIds_run :
    ∀ (ops : List Op) (s t : Session), Session.SameIds s t →
      (run s ops).map Session.ids = (run t ops).map Session.ids := by
  intro ops
  induction ops with
  | nil =>
    intro s t hst
    simp [run, hst.2.2]
  | cons op ops ih =>
    intro s t hst
    have hstep := sameIds_step s t op hst
    rw [run_cons, run_cons]
    cases hs : step s op with
    | none =>
      cases ht : step t op with
      | none => rfl
      | some t1 => simp [hs, ht] at hstep
    | some s1 =>
      cases ht : step t op with
      | none => simp [hs, ht] at hstep
      | some t1 =>
        simp only [hs, ht] at hstep
        simpa using ih s1 t1 hstep

/-- C15 (the code departs from the claim): the generator is default-constructed
and never seeded, so whatever the standard library's engine is, the trace id of
the first session of a process is the constant made of the first two draws of
the engine's default state, and two runs of the program that perform the same
sequence of calls (with any clocks) hold exactly the same trace id, span ids
and parent span ids. -/
theorem c15_ids_fixed_by_default_seed (E : Engine) (clock1 clock2 : Nat → Nat)
    (ops : List Op) :
    (Session.new (World.atProcessStart E clock1)).handle.m_trace_id
      = bytes8 (E.stream 0 % 2 ^ 64) ++ bytes8 (E.stream 1 % 2 ^ 64) ∧
    (Session.new (World.atProcessStart E clock1)).handle.m_trace_id
      = (Session.new (World.atProcessStart E clock2)).handle.m_trace_id ∧
    (run (Session.new (World.atProcessStart E clock1)) ops).map Session.ids
      = (run (Session.new (World.atProcessStart E clock2)) ops).map Session.ids :=
  ⟨rfl, rfl, sameIds_run ops _ _ ⟨rfl, rfl, rfl⟩⟩

/-! ## Round trip through the wire format -/

theorem byte_val (n : Nat) : (byte n).val = n % 256 := rfl

theorem decodeVarintAux_varintAux :
    ∀ (fuel n : Nat) (rest : Bytes), n < 128 ^ (fuel + 1) →
      decodeVarintAux (fuel + 1) (varintAux (fuel + 1) n ++ rest) = some (n, rest) := by
  intro fuel
  induction fuel with
  | zero =>
    intro n rest hn
    have hn1 : n < 128 := by simpa using hn
    have hb : n % 256 = n := by omega
    simp [varintAux, decodeVarintAux, hn1, byte_val, hb]
  | succ fuel ih =>
    intro n rest hn
    by_cases hn1 : n < 128
    · have hb : n % 256 = n := by omega
      simp [varintAux, decodeVarintAux, hn1, byte_val, hb]
    · have hdiv : n / 128 < 128 ^ (fuel + 1) := by
        rw [Nat.div_lt_iff_lt_mul (by decide)]
        calc n < 128 ^ (fuel + 1 + 1) := hn
          _ = 128 ^ (fuel + 1) * 128 := by rw [Nat.pow_succ]
      have hb : (n % 128 + 128) % 256 = n % 128 + 128 := by omega
      have hge : ¬ (n % 128 + 128 < 128) := by omega
      rw [varintAux]
      simp only [hn1, if_false, List.cons_append]
      rw [decodeVarintAux]
      simp only [byte_val, hb, hge, if_false]
      rw [ih (n / 128) rest hdiv]
      simp only [Option.some.injEq, Prod.mk.injEq, and_true]
      omega

theorem decodeVarint_varint (n : Nat) (rest : Bytes) :
    decodeVarint (varint n ++ rest) = some (n % 2 ^ 64, rest) := by
  have hlt : n % 2 ^ 64 < 128 ^ (9 + 1) := by
    have : n % 2 ^ 64 < 2 ^ 64 := Nat.mod_lt _ (by decide)
    have h2 : (2 : Nat) ^ 64 < 128 ^ (9 + 1) := by decide
    omega
  unfold decodeVarint varint
  rw [decodeVarintAux_varintAux 9 (n % 2 ^ 64) rest hlt]
  simp

theorem varint_ne_nil (n : Nat) : varint n ≠ [] := by
  unfold varint
  rw [varintAux]
  split <;> simp

theorem leValue_bytes8 (n : Nat) : leValue (bytes8 n) = n % 2 ^ 64 := by
  have h8 : bytes8 n =
      [byte (n % 2 ^ 64 / 256 ^ 0), byte (n % 2 ^ 64 / 256 ^ 1), byte (n % 2 ^ 64 / 256 ^ 2),
       byte (n % 2 ^ 64 / 256 ^ 3), byte (n % 2 ^ 64 / 256 ^ 4), byte (n % 2 ^ 64 / 256 ^ 5),
       byte (n % 2 ^ 64 / 256 ^ 6), byte (n % 2 ^ 64 / 256 ^ 7)] := rfl
  rw [h8]
  simp only [leValue, byte_val]
  have hm : n % 2 ^ 64 < 2 ^ 64 := Nat.mod_lt _ (by decide)
  generalize n % 2 ^ 64 = m at hm
  norm_num at hm ⊢
  omega

theorem decodeFixed_bytes8 (n : Nat) (rest : Bytes) :
    decodeFixed 8 (bytes8 n ++ rest) = some (n % 2 ^ 64, rest) := by
  have hlen := bytes8_length n
  unfold decodeFixed
  have h1 : ¬ ((bytes8 n ++ rest).length < 8) := by simp [hlen]
  rw [if_neg h1]
  have h2 : (bytes8 n ++ rest).take 8 = bytes8 n := by
    rw [← hlen, List.take_left]
  have h3 : (bytes8 n ++ rest).drop 8 = rest := by
    rw [← hlen, List.drop_left]
  rw [h2, h3, leValue_bytes8]

theorem bytes8_injective (a b : Nat) (hab : bytes8 a = bytes8 b) : a % 2 ^ 64 = b % 2 ^ 64 := by
  rw [← leValue_bytes8 a, ← leValue_bytes8 b, hab]

theorem decodeField_encode (f : RawField) (rest : Bytes) (hwf : f.wf = true) :
    decodeField (f.encode ++ rest) = some (f, rest) := by
  obtain ⟨number, value⟩ := f
  simp only [RawField.wf, Bool.and_eq_true, decide_eq_true_eq] at hwf
  obtain ⟨hnum, hval⟩ := hwf
  cases value with
  | varint n =>
    simp only [decide_eq_true_eq] at hval
    have hkey : (number * 8 + 0) % 2 ^ 64 = number * 8 := by omega
    have h0 : number * 8 % 8 = 0 := by omega
    have hdiv : number * 8 / 8 = number := by omega
    have hn : n % 2 ^ 64 = n := Nat.mod_eq_of_lt hval
    simp only [RawField.encode, WireValue.wireType, List.append_assoc, decodeField,
      decodeVarint_varint, hkey, h0, hdiv, if_true, hn]
  | fixed64 n =>
    simp only [decide_eq_true_eq] at hval
    have hkey : (number * 8 + 1) % 2 ^ 64 = number * 8 + 1 := by omega
    have h0 : (number * 8 + 1) % 8 = 1 := by omega
    have hdiv : (number * 8 + 1) / 8 = number := by omega
    have hn : n % 2 ^ 64 = n := Nat.mod_eq_of_lt hval
    simp only [RawField.encode, WireValue.wireType, List.append_assoc, decodeField,
      decodeVarint_varint, hkey, h0, hdiv, decodeFixed_bytes8, hn]
    simp
  | bytes p =>
    simp only [decide_eq_true_eq] at hval
    have hkey : (number * 8 + 2) % 2 ^ 64 = number * 8 + 2 := by omega
    have h0 : (number * 8 + 2) % 8 = 2 := by omega
    have hdiv : (number * 8 + 2) / 8 = number := by omega
    have hn : p.length % 2 ^ 64 = p.length := Nat.mod_eq_of_lt hval
    simp only [RawField.encode, WireValue.wireType, List.append_assoc, decodeField,
      decodeVarint_varint, hkey, h0, hdiv, hn]
    simp
  | fixed32 n => simp at hval

theorem encode_ne_nil (f : RawField) : f.encode ≠ [] := by
  unfold RawField.encode
  intro hnil
  exact varint_ne_nil _ (List.append_eq_nil.mp hnil).1

theorem parseFields_encode :
    ∀ (fs : List RawField) (fuel : Nat), (∀ f ∈ fs, f.wf = true) →
      ((fs.map RawField.encode).flatten).length ≤ fuel →
      parseFields fuel ((fs.map RawField.encode).flatten) = some fs := by
  intro fs
  induction fs with
  | nil =>
    intro fuel _ _
    cases fuel <;> simp [parseFields]
  | cons f fs ih =>
    intro fuel hwf hlen
    have hne := encode_ne_nil f
    simp only [List.map_cons, List.flatten_cons] at hlen ⊢
    cases henc : f.encode ++ (fs.map RawField.encode).flatten with
    | nil => exact absurd (List.append_eq_nil.mp henc).1 hne
    | cons b bs =>
      have hdec := decodeField_encode f ((fs.map RawField.encode).flatten)
        (hwf f (List.mem_cons_self _ _))
      rw [henc] at hdec hlen
      cases fuel with
      | zero => simp at hlen
      | succ fuel =>
        have hpos : 0 < f.encode.length := List.length_pos.mpr hne
        have hlen2 : ((fs.map RawField.encode).flatten).length ≤ fuel := by
          have hlen_eq := congrArg List.length henc
          simp only [List.length_append, List.length_cons] at hlen_eq hlen
          omega
        rw [parseFields, hdec]
        simp only []
        rw [ih fuel (fun g hg => hwf g (List.mem_cons_of_mem _ hg)) hlen2]

theorem foldFields_append {α : Type} (merge : α → RawField → Option α) (acc : α)
    (fs gs : List RawField) :
    foldFields merge acc (fs ++ gs) =
      (foldFields merge acc fs).bind fun acc1 => foldFields merge acc1 gs := by
  induction fs generalizing acc with
  | nil => simp [foldFields]
  | cons f fs ih =>
    simp only [List.cons_append, foldFields]
    cases merge acc f with
    | none => simp
    | some acc1 => simpa using ih acc1

theorem parseFields_of_eq (bs : Bytes) (fs : List RawField)
    (hbs : bs = (fs.map RawField.encode).flatten) (hwf : ∀ f ∈ fs, f.wf = true) :
    parseFields bs.length bs = some fs := by
  subst hbs
  exact parseFields_encode fs _ hwf (Nat.le_refl _)

theorem foldFields_optional {α : Type} (merge : α → RawField → Option α) (acc : α)
    (c : Prop) [Decidable c] (f : RawField) :
    foldFields merge acc (if c then [] else [f]) =
      if c then some acc else merge acc f := by
  by_cases hc : c
  · simp [hc, foldFields]
  · simp only [hc, if_false, foldFields]
    cases merge acc f <;> rfl

theorem varint_small (n : Nat) (hn : n < 128) : varint n = [byte n] := by
  have h64 : n % 2 ^ 64 = n := by omega
  unfold varint
  rw [h64, varintAux, if_pos hn]

theorem anyValue_encode_eq (v : AnyValue) : v.encode = v.toRaw.encode := by
  cases v with
  | string_value p =>
    simp [AnyValue.encode, AnyValue.toRaw, RawField.encode, WireValue.wireType, lenDelimited,
      varint_small]
  | bool_value b =>
    cases b <;>
      simp [AnyValue.encode, AnyValue.toRaw, RawField.encode, WireValue.wireType, varint_small] <;>
      rfl
  | int_value i =>
    simp [AnyValue.encode, AnyValue.toRaw, RawField.encode, WireValue.wireType, varint_small]
  | double_value bits =>
    simp [AnyValue.encode, AnyValue.toRaw, RawField.encode, WireValue.wireType, varint_small]

theorem anyValue_toRaw_wf (v : AnyValue) (hwf : v.wf = true) : v.toRaw.wf = true := by
  cases v with
  | string_value p => simpa [AnyValue.wf, AnyValue.toRaw, RawField.wf] using hwf
  | bool_value b => cases b <;> simp [AnyValue.toRaw, RawField.wf]
  | int_value i =>
    simp only [AnyValue.toRaw, RawField.wf, Bool.and_eq_true, decide_eq_true_eq]
    refine ⟨by decide, ?_⟩
    have h1 : i % 2 ^ 64 < 2 ^ 64 := Int.emod_lt_of_pos _ (by decide)
    have h2 : 0 ≤ i % 2 ^ 64 := Int.emod_nonneg _ (by decide)
    omega
  | double_value bits => simpa [AnyValue.wf, AnyValue.toRaw, RawField.wf] using hwf

theorem anyValue_decode_encode (v : AnyValue) (hwf : v.wf = true) (hutf : v.utf8 = true) :
    AnyValue.decode v.encode = some (some v) := by
  have hparse : parseFields v.encode.length v.encode = some [v.toRaw] :=
    parseFields_of_eq v.encode [v.toRaw] (by simp [anyValue_encode_eq])
      (by simpa using anyValue_toRaw_wf v hwf)
  unfold AnyValue.decode
  rw [hparse]
  cases v with
  | string_value p =>
    have hp : validUtf8 p = true := hutf
    simp [foldFields, AnyValue.merge, AnyValue.toRaw, hp]
  | bool_value b => cases b <;> simp [foldFields, AnyValue.merge, AnyValue.toRaw]
  | int_value i =>
    simp only [AnyValue.wf, Bool.and_eq_true, decide_eq_true_eq] at hwf
    have h1 : i % 2 ^ 64 < 2 ^ 64 := Int.emod_lt_of_pos _ (by decide)
    have h2 : 0 ≤ i % 2 ^ 64 := Int.emod_nonneg _ (by decide)
    have hcast : (((i % 2 ^ 64).toNat : Nat) : Int) = i % 2 ^ 64 := Int.toNat_of_nonneg h2
    simp only [foldFields, AnyValue.merge, AnyValue.toRaw]
    simp only [show ¬ ((3 : Nat) = 2) by decide, if_false, if_true, Option.some.injEq,
      AnyValue.int_value.injEq]
    split
    · omega
    · omega
  | double_value bits => simp [foldFields, AnyValue.merge, AnyValue.toRaw]

theorem bytesField_eq (number : Nat) (tag : Nat) (p : Bytes) (htag : tag = number * 8 + 2)
    (hsmall : tag < 128) :
    bytesField tag p =
      ((if p = [] then [] else [({ number := number, value := .bytes p } : RawField)]).map
        RawField.encode).flatten := by
  subst htag
  by_cases hp : p = []
  · simp [bytesField, hp]
  · simp [bytesField, hp, lenDelimited, RawField.encode, WireValue.wireType,
      varint_small _ hsmall]

theorem lenDelimited_eq (number : Nat) (tag : Nat) (p : Bytes) (htag : tag = number * 8 + 2)
    (hsmall : tag < 128) :
    lenDelimited tag p = RawField.encode { number := number, value := .bytes p } := by
  subst htag
  simp [lenDelimited, RawField.encode, WireValue.wireType, varint_small _ hsmall]

theorem fixed64Field_eq (number : Nat) (tag : Nat) (v : Nat) (htag : tag = number * 8 + 1)
    (hsmall : tag < 128) :
    fixed64Field tag v =
      ((if v % 2 ^ 64 = 0 then []
        else [({ number := number, value := .fixed64 v } : RawField)]).map
        RawField.encode).flatten := by
  subst htag
  by_cases hv : v % 2 ^ 64 = 0
  · simp only [fixed64Field, hv, if_true, List.map_nil, List.flatten_nil]
  · simp only [fixed64Field, hv, if_false, List.map_cons, List.map_nil, List.flatten_cons,
      List.flatten_nil, List.append_nil, RawField.encode, WireValue.wireType,
      varint_small _ hsmall, List.singleton_append]

theorem keyValue_encode_eq (kv : KeyValue) :
    kv.encode = (kv.toRaw.map RawField.encode).flatten := by
  unfold KeyValue.encode KeyValue.toRaw
  rw [List.map_append, List.flatten_append, bytesField_eq 1 0x0A kv.key rfl (by decide)]
  cases kv.value with
  | none => simp
  | some v => simp [lenDelimited_eq 2 0x12 v.encode rfl (by decide)]

theorem keyValue_toRaw_wf (kv : KeyValue) (hwf : kv.wf = true) :
    ∀ f ∈ kv.toRaw, f.wf = true := by
  simp only [KeyValue.wf, Bool.and_eq_true, decide_eq_true_eq] at hwf
  obtain ⟨hkey, hval⟩ := hwf
  intro f hf
  simp only [KeyValue.toRaw, List.mem_append] at hf
  rcases hf with hf | hf
  · by_cases hk : kv.key = []
    · simp [hk] at hf
    · simp only [hk, if_false, List.mem_singleton] at hf
      subst hf
      simpa [RawField.wf] using hkey
  · cases hv : kv.value with
    | none => simp [hv] at hf
    | some v =>
      simp only [hv, List.mem_singleton] at hf
      subst hf
      simp only [hv, Bool.and_eq_true, decide_eq_true_eq] at hval
      simpa [RawField.wf] using hval.2

theorem keyValue_decode_encode (kv : KeyValue) (hwf : kv.wf = true) (hutf : kv.utf8 = true) :
    KeyValue.decode kv.encode = some kv := by
  have hparse : parseFields kv.encode.length kv.encode = some kv.toRaw :=
    parseFields_of_eq kv.encode kv.toRaw (keyValue_encode_eq kv) (keyValue_toRaw_wf kv hwf)
  unfold KeyValue.decode
  rw [hparse]
  obtain ⟨key, value⟩ := kv
  simp only [KeyValue.wf, Bool.and_eq_true, decide_eq_true_eq] at hwf
  simp only [KeyValue.utf8, Bool.and_eq_true] at hutf
  obtain ⟨hkey, hvalue⟩ := hutf
  simp only [KeyValue.toRaw, foldFields_append, foldFields_optional]
  cases value with
  | none =>
    by_cases hk : key = []
    · simp [hk, foldFields]
    · simp [hk, foldFields, KeyValue.merge, hkey]
  | some v =>
    have hv : AnyValue.decode v.encode = some (some v) := by
      have hwf2 := hwf.2
      simp only [Bool.and_eq_true, decide_eq_true_eq] at hwf2
      exact anyValue_decode_encode v hwf2.1 hvalue
    by_cases hk : key = []
    · simp [hk, foldFields, KeyValue.merge, hv]
    · simp [hk, foldFields, KeyValue.merge, hv, hkey]

theorem span_encode_eq (sp : Span) : sp.encode = (sp.toRaw.map RawField.encode).flatten := by
  unfold Span.encode Span.toRaw
  simp only [List.map_append, List.flatten_append]
  rw [bytesField_eq 1 0x0A sp.trace_id rfl (by decide),
    bytesField_eq 2 0x12 sp.span_id rfl (by decide),
    bytesField_eq 4 0x22 sp.parent_span_id rfl (by decide),
    bytesField_eq 5 0x2A sp.name rfl (by decide),
    fixed64Field_eq 7 0x39 sp.start_time_unix_nano rfl (by decide),
    fixed64Field_eq 8 0x41 sp.end_time_unix_nano rfl (by decide)]
  congr 1
  induction sp.attributes with
  | nil => rfl
  | cons kv kvs ih =>
    simp only [List.map_cons, List.flatten_cons, ih,
      lenDelimited_eq 9 0x4A kv.encode rfl (by decide)]

theorem span_toRaw_wf (sp : Span) (hwf : sp.wf = true) : ∀ f ∈ sp.toRaw, f.wf = true := by
  simp only [Span.wf, Bool.and_eq_true, decide_eq_true_eq, List.all_eq_true] at hwf
  obtain ⟨⟨⟨⟨⟨⟨h1, h2⟩, h3⟩, h4⟩, h5⟩, h6⟩, h7⟩ := hwf
  intro f hf
  simp only [Span.toRaw, List.mem_append, List.mem_map] at hf
  rcases hf with (((((hf | hf) | hf) | hf) | hf) | hf) | ⟨kv, hkv, rfl⟩
  · by_cases hc : sp.trace_id = []
    · simp [hc] at hf
    · simp only [hc, if_false, List.mem_singleton] at hf
      subst hf
      simpa [RawField.wf] using h1
  · by_cases hc : sp.span_id = []
    · simp [hc] at hf
    · simp only [hc, if_false, List.mem_singleton] at hf
      subst hf
      simpa [RawField.wf] using h2
  · by_cases hc : sp.parent_span_id = []
    · simp [hc] at hf
    · simp only [hc, if_false, List.mem_singleton] at hf
      subst hf
      simpa [RawField.wf] using h3
  · by_cases hc : sp.name = []
    · simp [hc] at hf
    · simp only [hc, if_false, List.mem_singleton] at hf
      subst hf
      simpa [RawField.wf] using h4
  · by_cases hc : sp.start_time_unix_nano % 2 ^ 64 = 0
    · rw [if_pos hc] at hf
      exact absurd hf (List.not_mem_nil _)
    · simp only [hc, if_false, List.mem_singleton] at hf
      subst hf
      simpa [RawField.wf] using h5
  · by_cases hc : sp.end_time_unix_nano % 2 ^ 64 = 0
    · rw [if_pos hc] at hf
      exact absurd hf (List.not_mem_nil _)
    · simp only [hc, if_false, List.mem_singleton] at hf
      subst hf
      simpa [RawField.wf] using h6
  · simpa [RawField.wf] using (h7 kv hkv).2

theorem foldFields_attributes (attrs : List KeyValue)
    (hdec : ∀ kv ∈ attrs, KeyValue.decode kv.encode = some kv) :
    ∀ acc : Span,
      foldFields Span.merge acc
          (attrs.map fun kv => ({ number := 9, value := .bytes kv.encode } : RawField)) =
        some { acc with attributes := acc.attributes ++ attrs } := by
  induction attrs with
  | nil =>
    intro acc
    simp [foldFields]
  | cons kv kvs ih =>
    intro acc
    have hkv := hdec kv (List.mem_cons_self _ _)
    simp only [List.map_cons, foldFields, Span.merge, hkv]
    simp only [show ¬ ((9 : Nat) = 1) by decide, show ¬ ((9 : Nat) = 2) by decide,
      show ¬ ((9 : Nat) = 3) by decide, show ¬ ((9 : Nat) = 4) by decide,
      show ¬ ((9 : Nat) = 5) by decide, if_false, if_true]
    rw [ih (fun k hk => hdec k (List.mem_cons_of_mem _ hk))]
    simp

theorem span_fold_toRaw (sp : Span) (hwf : sp.wf = true)
    (hattr : validUtf8 sp.name = true → ∀ kv ∈ sp.attributes, kv.utf8 = true) :
    foldFields Span.merge {} sp.toRaw = if validUtf8 sp.name = true then some sp else none := by
  have hwf1 := hwf
  simp only [Span.wf, Bool.and_eq_true, decide_eq_true_eq, List.all_eq_true] at hwf1
  obtain ⟨⟨⟨⟨⟨⟨_, _⟩, _⟩, _⟩, h5⟩, h6⟩, h7⟩ := hwf1
  obtain ⟨tid, sid, pid, name, st, en, attrs⟩ := sp
  simp only at h5 h6 h7 hattr
  have hst : st % 2 ^ 64 = st := Nat.mod_eq_of_lt h5
  have hen : en % 2 ^ 64 = en := Nat.mod_eq_of_lt h6
  simp only [Span.toRaw, foldFields_append, foldFields_optional, hst, hen]
  have e1 : (if tid = [] then some ({} : Span)
      else Span.merge {} { number := 1, value := .bytes tid })
      = some { trace_id := tid } := by
    by_cases hc : tid = []
    · simp [hc]
    · simp [hc, Span.merge]
  have e2 : (if sid = [] then some ({ trace_id := tid } : Span)
      else Span.merge { trace_id := tid } { number := 2, value := .bytes sid })
      = some { trace_id := tid, span_id := sid } := by
    by_cases hc : sid = []
    · simp [hc]
    · simp [hc, Span.merge]
  have e3 : (if pid = [] then some ({ trace_id := tid, span_id := sid } : Span)
      else Span.merge { trace_id := tid, span_id := sid } { number := 4, value := .bytes pid })
      = some { trace_id := tid, span_id := sid, parent_span_id := pid } := by
    by_cases hc : pid = []
    · simp [hc]
    · simp [hc, Span.merge]
  have e4 : (if name = [] then
        some ({ trace_id := tid, span_id := sid, parent_span_id := pid } : Span)
      else Span.merge { trace_id := tid, span_id := sid, parent_span_id := pid }
        { number := 5, value := .bytes name })
      = if validUtf8 name = true then
          some { trace_id := tid, span_id := sid, parent_span_id := pid, name := name }
        else none := by
    by_cases hc : name = []
    · subst hc
      have hv : validUtf8 ([] : Bytes) = true := rfl
      rw [if_pos rfl, if_pos hv]
    · simp [hc, Span.merge]
  have e5 : (if st = 0 then
        some ({ trace_id := tid, span_id := sid, parent_span_id := pid, name := name } : Span)
      else Span.merge { trace_id := tid, span_id := sid, parent_span_id := pid, name := name }
        { number := 7, value := .fixed64 st })
      = some { trace_id := tid, span_id := sid, parent_span_id := pid, name := name,
               start_time_unix_nano := st } := by
    by_cases hc : st = 0
    · simp [hc]
    · simp [hc, Span.merge]
  have e6 : (if en = 0 then
        some ({ trace_id := tid, span_id := sid, parent_span_id := pid, name := name,
                start_time_unix_nano := st } : Span)
      else Span.merge { trace_id := tid, span_id := sid, parent_span_id := pid, name := name,
                        start_time_unix_nano := st }
        { number := 8, value := .fixed64 en })
      = some { trace_id := tid, span_id := sid, parent_span_id := pid, name := name,
               start_time_unix_nano := st, end_time_unix_nano := en } := by
    by_cases hc : en = 0
    · simp [hc]
    · simp [hc, Span.merge]
  rw [e1]
  simp only [Option.some_bind]
  rw [e2]
  simp only [Option.some_bind]
  rw [e3]
  simp only [Option.some_bind]
  rw [e4]
  by_cases hname : validUtf8 name = true
  · have hattrs := foldFields_attributes attrs
      (fun kv hkv => keyValue_decode_encode kv (h7 kv hkv).1 (hattr hname kv hkv))
    simp only [hname, if_true, Option.some_bind]
    rw [e5]
    simp only [Option.some_bind]
    rw [e6]
    simp only [Option.some_bind]
    rw [hattrs]
    simp
  · simp only [hname, if_false, Option.none_bind, Bool.false_eq_true]

theorem span_parse_encode (sp : Span) (hwf : sp.wf = true) :
    parseFields sp.encode.length sp.encode = some sp.toRaw :=
  parseFields_of_eq sp.encode sp.toRaw (span_encode_eq sp) (span_toRaw_wf sp hwf)

theorem span_decode_encode (sp : Span) (hwf : sp.wf = true) (hutf : sp.utf8 = true) :
    Span.decode sp.encode = some sp := by
  simp only [Span.utf8, Bool.and_eq_true, List.all_eq_true] at hutf
  have hfold := span_fold_toRaw sp hwf (fun _ => hutf.2)
  rw [if_pos hutf.1] at hfold
  unfold Span.decode
  rw [span_parse_encode sp hwf]
  exact hfold

theorem span_decode_invalid_name (sp : Span) (hwf : sp.wf = true)
    (hname : validUtf8 sp.name = false) : Span.decode sp.encode = none := by
  have hne : ¬ (validUtf8 sp.name = true) := by simp [hname]
  have hfold := span_fold_toRaw sp hwf (fun h => absurd h hne)
  rw [if_neg hne] at hfold
  unfold Span.decode
  rw [span_parse_encode sp hwf]
  exact hfold

theorem entered_then_closed_wf (h : Handle) (w w1 : World) (name : Bytes)
    (hname : name.length < 2 ^ 64) (htid : h.m_trace_id.length < 2 ^ 64)
    (htop : ∀ top ∈ h.m_context.head?, top.span_id.length < 2 ^ 64) :
    Span.wf { enteredSpan h w name with end_time_unix_nano := (_now_unix_nano w1).1 } = true := by
  have hstart : w.clock w.read % 2 ^ 64 < 2 ^ 64 := Nat.mod_lt _ (by decide)
  have hend : w1.clock w1.read % 2 ^ 64 < 2 ^ 64 := Nat.mod_lt _ (by decide)
  have hparent : (enteredSpan h w name).parent_span_id.length < 2 ^ 64 := by
    cases hc : h.m_context with
    | nil => simp [enteredSpan, hc]
    | cons top rest =>
      have := htop top (by simp [hc])
      simpa [enteredSpan, hc] using this
  simp only [Span.wf, Bool.and_eq_true, decide_eq_true_eq, List.all_eq_true]
  refine ⟨⟨⟨⟨⟨⟨htid, ?_⟩, hparent⟩, hname⟩, hstart⟩, hend⟩, ?_⟩
  · simp [enteredSpan, bytes8_length]
  · intro kv hkv
    simp [enteredSpan] at hkv

theorem entered_then_closed_utf8 (h : Handle) (w : World) (name : Bytes) (now : Nat)
    (hutf : validUtf8 name = true) :
    Span.utf8 { enteredSpan h w name with end_time_unix_nano := now } = true := by
  simp [Span.utf8, enteredSpan, hutf]

theorem sampleInvalid_output :
    run (Session.new World.sample) [Op.enter_span str_invalid, Op.exit_span]
      = some Session.sampleInvalid ∧
    Session.sampleInvalid.closed = [Span.sampleInvalid] ∧
    Session.sampleInvalid.handle.m_serialized = Span.sampleInvalid.encode :=
  ⟨rfl, rfl, rfl⟩

/-- C13 (the claim fails here): `enter_span` takes any bytes as a name. With
the one-byte name `FF`, which is not valid UTF-8, the bytes that `exit_span`
appends are the encoding of the closed span and carry the name in the proto3
`string` field 5, and a parser of the span message rejects them instead of
returning the span. -/
theorem c13_invalid_utf8_name_rejected :
    validUtf8 str_invalid = false ∧
    run (Session.new World.sample) [Op.enter_span str_invalid, Op.exit_span]
      = some Session.sampleInvalid ∧
    Session.sampleInvalid.closed = [Span.sampleInvalid] ∧
    Span.sampleInvalid.name = str_invalid ∧
    Session.sampleInvalid.handle.m_serialized = Span.sampleInvalid.encode ∧
    Span.decode Session.sampleInvalid.handle.m_serialized = none ∧
    Span.decode Session.sampleInvalid.handle.m_serialized ≠ some Span.sampleInvalid := by
  have hnone : Span.decode Session.sampleInvalid.handle.m_serialized = none := by
    rw [sampleInvalid_output.2.2]
    exact span_decode_invalid_name Span.sampleInvalid (by decide) (by decide)
  refine ⟨by decide, rfl, rfl, rfl, rfl, hnone, ?_⟩
  rw [hnone]
  exact Option.noConfusion

/-- C13 (amended): decoding the encoding of a span gives back the span, field
by field (name, trace id, span id, parent span id, empty when it was empty,
start and end timestamps, attributes), for every span whose name, attribute
keys and string values are valid UTF-8, whose strings and nested encodings are
shorter than `2 ^ 64` bytes and whose scalars are in the range of their C++
types; a span in range whose name is not valid UTF-8 is rejected by the
parser. The span that `enter_span` followed by `exit_span` appends to the
output, for a name that is valid UTF-8, is a span of the first kind, so
decoding the appended bytes yields exactly it. -/
theorem c13_span_round_trip :
    (∀ sp : Span, sp.wf = true → sp.utf8 = true → Span.decode sp.encode = some sp) ∧
    (∀ sp : Span, sp.wf = true → validUtf8 sp.name = false → Span.decode sp.encode = none) ∧
    (∀ (h : Handle) (w w1 : World) (name : Bytes),
      name.length < 2 ^ 64 → validUtf8 name = true → h.m_trace_id.length < 2 ^ 64 →
      (∀ top ∈ h.m_context.head?, top.span_id.length < 2 ^ 64) →
      ∃ (sp : Span) (h2 : Handle) (w2 : World),
        exit_span (enter_span h w name).1 w1 = some (h2, w2) ∧
        h2.m_serialized = h.m_serialized ++ sp.encode ∧
        sp = { enteredSpan h w name with end_time_unix_nano := (_now_unix_nano w1).1 } ∧
        sp.name = name ∧
        sp.trace_id = h.m_trace_id ∧
        Span.decode sp.encode = some sp) := by
  refine ⟨span_decode_encode, span_decode_invalid_name, ?_⟩
  intro h w w1 name hname hutf htid htop
  have hexit := exit_span_cons (enter_span h w name).1 w1 (enteredSpan h w name) h.m_context
    (by rw [enter_span_eq])
  refine ⟨{ enteredSpan h w name with end_time_unix_nano := (_now_unix_nano w1).1 }, _, _,
    hexit, ?_, rfl, rfl, rfl,
    span_decode_encode _ (entered_then_closed_wf h w w1 name hname htid htop)
      (entered_then_closed_utf8 h w name _ hutf)⟩
  rw [enter_span_eq]
  rfl

theorem c13_span_round_trip_witness :
    Span.sample.wf = true ∧ Span.sample.utf8 = true ∧
    Span.decode Span.sample.encode = some Span.sample :=
  ⟨by decide, by decide, c13_span_round_trip.1 Span.sample (by decide) (by decide)⟩

theorem new_trace_id_length (w : World) : (Handle.new w).1.m_trace_id.length = 16 := by
  simp [Handle.new, _gen_random_trace_id, _gen_random_8bytes, bytes8_length]

theorem bytesField_length (tag : Nat) (p : Bytes) (hp : p ≠ []) (hlen : p.length < 128) :
    (bytesField tag p).length = p.length + 2 := by
  simp [bytesField, hp, lenDelimited, varint_small _ hlen]

theorem encode_length_ge (sp : Span) (ht : sp.trace_id.length = 16)
    (hs : sp.span_id.length = 8) : 28 ≤ sp.encode.length := by
  have h1 : (bytesField 0x0A sp.trace_id).length = 18 := by
    rw [bytesField_length _ _ (by intro h0; simp [h0] at ht) (by omega), ht]
  have h2 : (bytesField 0x12 sp.span_id).length = 10 := by
    rw [bytesField_length _ _ (by intro h0; simp [h0] at hs) (by omega), hs]
  unfold Span.encode
  simp only [List.length_append, h1, h2]
  omega

/-- C17 (the claim fails here): after `enter_span` with the one-byte name
`FF`, which is not valid UTF-8, and `exit_span()` on a new session, the output
is not empty and a call with capacity 0 returns 0, but the bytes that a call
with a 64-byte buffer delivers do not decode as a span: the parser rejects the
name. -/
theorem c17_invalid_utf8_name_not_decodable :
    validUtf8 str_invalid = false ∧
    run (Session.new World.sample) [Op.enter_span str_invalid, Op.exit_span]
      = some Session.sampleInvalid ∧
    Session.sampleInvalid.handle.m_serialized ≠ [] ∧
    (get_serialized_data Session.sampleInvalid.handle buf64 0).2.1 = 0 ∧
    buf64.length = 64 ∧
    Session.sampleInvalid.handle.m_serialized.length ≤ 64 ∧
    (get_serialized_data Session.sampleInvalid.handle buf64 64).2.1
      = Session.sampleInvalid.handle.m_serialized.length ∧
    Span.decode ((get_serialized_data Session.sampleInvalid.handle buf64 64).2.2.take
      (get_serialized_data Session.sampleInvalid.handle buf64 64).2.1) = none := by
  have hle : Session.sampleInvalid.handle.m_serialized.length ≤ 64 := by decide
  refine ⟨by decide, rfl, by decide, by decide, by decide, hle, ?_, ?_⟩
  · rw [get_serialized_data_of_le _ buf64 64 hle]
  · rw [get_serialized_data_of_le _ buf64 64 hle]
    simp only [List.take_left']
    rw [sampleInvalid_output.2.2]
    exact span_decode_invalid_name Span.sampleInvalid (by decide) (by decide)

/-- C17 (amended): for every name and environment, after `enter_span(name)`,
`exit_span()` on a new session the output buffer is the encoding of the one
closed span; it holds at least the 18 bytes of the trace id field and the 10
bytes of the span id field, so it is not empty and `get_serialized_data` with
capacity 0 returns 0 and writes nothing; with a capacity of at least the
output length the call delivers the whole non-empty output. When the name is
valid UTF-8 (and shorter than `2 ^ 64` bytes, as its `uint64_t` length
implies) these bytes decode as that one span, whose name is the given name;
when the name is not valid UTF-8 they do not decode. -/
theorem c17_enter_exit_output (w : World) (name : Bytes) :
    ∃ s sp, run (Session.new w) [Op.enter_span name, Op.exit_span] = some s ∧
      s.closed = [sp] ∧
      sp.name = name ∧
      s.handle.m_serialized = sp.encode ∧
      28 ≤ s.handle.m_serialized.length ∧
      s.handle.m_serialized ≠ [] ∧
      (∀ buf, get_serialized_data s.handle buf 0 = (s.handle, 0, buf)) ∧
      (∀ buf cap, s.handle.m_serialized.length ≤ cap →
        (get_serialized_data s.handle buf cap).2.1 = s.handle.m_serialized.length ∧
        (get_serialized_data s.handle buf cap).2.2.take (get_serialized_data s.handle buf cap).2.1
          = s.handle.m_serialized ∧
        (name.length < 2 ^ 64 → validUtf8 name = true →
          Span.decode ((get_serialized_data s.handle buf cap).2.2.take
            (get_serialized_data s.handle buf cap).2.1) = some sp) ∧
        (name.length < 2 ^ 64 → validUtf8 name = false →
          Span.decode ((get_serialized_data s.handle buf cap).2.2.take
            (get_serialized_data s.handle buf cap).2.1) = none)) := by
  have htid := new_trace_id_length w
  have hlen : ∀ sp : Span, sp.trace_id = (Handle.new w).1.m_trace_id →
      sp.span_id.length = 8 → 28 ≤ ([] ++ sp.encode).length := by
    intro sp h1 h2
    rw [List.nil_append]
    exact encode_length_ge sp (by rw [h1, htid]) h2
  have h28 := hlen
    { enteredSpan (Session.new w).handle (Session.new w).world name with
      end_time_unix_nano :=
        (_now_unix_nano (enter_span (Session.new w).handle (Session.new w).world name).2).1 }
    rfl (bytes8_length _)
  have hwf : name.length < 2 ^ 64 →
      Span.wf { enteredSpan (Session.new w).handle (Session.new w).world name with
        end_time_unix_nano :=
          (_now_unix_nano
            (enter_span (Session.new w).handle (Session.new w).world name).2).1 } = true :=
    fun hname =>
      entered_then_closed_wf (Session.new w).handle (Session.new w).world _ name hname
        (by rw [show (Session.new w).handle.m_trace_id = (Handle.new w).1.m_trace_id from rfl,
              htid]; decide)
        (by intro top htop; simp [Session.new, Handle.new] at htop)
  refine ⟨_, _, rfl, rfl, rfl, rfl, h28, ?_, ?_, ?_⟩
  · intro h0
    exact absurd (Eq.mp (congrArg (fun l : Bytes => 28 ≤ l.length) h0) h28) (by decide)
  · intro buf
    exact get_serialized_data_of_lt _ buf 0 (Nat.lt_of_lt_of_le (by decide) h28)
  · intro buf cap hcap
    rw [get_serialized_data_of_le _ buf cap hcap]
    refine ⟨rfl, by simp, ?_, ?_⟩
    · intro hname hutf
      simp only [List.take_left']
      exact span_decode_encode _ (hwf hname)
        (entered_then_closed_utf8 (Session.new w).handle (Session.new w).world name _ hutf)
    · intro hname hbad
      simp only [List.take_left']
      exact span_decode_invalid_name _ (hwf hname) hbad

theorem c17_enter_exit_output_witness :
    str_r.length < 2 ^ 64 ∧ validUtf8 str_r = true ∧ buf64.length = 64 ∧
    ∃ s sp, run (Session.new World.sample) [Op.enter_span str_r, Op.exit_span] = some s ∧
      s.closed = [sp] ∧ sp.name = str_r ∧
      28 ≤ s.handle.m_serialized.length ∧
      s.handle.m_serialized.length ≤ 64 ∧
      Span.decode ((get_serialized_data s.handle buf64 64).2.2.take
        (get_serialized_data s.handle buf64 64).2.1) = some sp := by
  refine ⟨by decide, by decide, by decide, ?_⟩
  obtain ⟨s, sp, h1, h2, h3, _, h5, _, _, h8⟩ := c17_enter_exit_output World.sample str_r
  have hs : s = Session.sampleClosed :=
    Option.some.inj (h1.symm.trans
      (rfl : run (Session.new World.sample) [Op.enter_span str_r, Op.exit_span]
        = some Session.sampleClosed))
  have hle : s.handle.m_serialized.length ≤ 64 := by
    rw [hs]
    decide
  exact ⟨s, sp, h1, h2, h3, h5, hle, (h8 buf64 64 hle).2.2.1 (by decide) (by decide)⟩

/-! ## Life cycle of a span -/

theorem origins_step (s : Session) (op : Op) (s1 : Session)
    (hP : (∀ sp ∈ s.handle.m_context, sp.end_time_unix_nano = 0) ∧
      ∃ ost oc, Session.Origins s ost oc)
    (hs : step s op = some s1) :
    (∀ sp ∈ s1.handle.m_context, sp.end_time_unix_nano = 0) ∧
      ∃ ost oc, Session.Origins s1 ost oc := by
  obtain ⟨hend, ost, oc, ho1, ho2, ho3, ho4⟩ := hP
  cases op with
  | enter_span name =>
    simp only [step, enter_span_eq, Option.some.injEq] at hs
    subst hs
    refine ⟨?_, s.world.drawn :: ost, oc, ?_, ho2, ?_, ?_⟩
    · intro sp hsp
      rcases List.mem_cons.mp hsp with rfl | hmem
      · rfl
      · exact hend sp hmem
    · simp only [List.map_cons, List.cons.injEq]
      exact ⟨rfl, ho1⟩
    · rw [List.cons_append, List.nodup_cons]
      exact ⟨fun hmem => Nat.lt_irrefl _ (ho4 _ hmem), ho3⟩
    · intro k hk
      rw [List.cons_append] at hk
      rcases List.mem_cons.mp hk with rfl | hmem
      · exact Nat.lt_succ_self _
      · exact Nat.lt_succ_of_lt (ho4 k hmem)
  | add_string_attribute name val =>
    simp only [step, Option.some.injEq] at hs
    subst hs
    exact ⟨hend, ost, oc, ho1, ho2, ho3, ho4⟩
  | add_bool_attribute name val =>
    simp only [step, Option.some.injEq] at hs
    subst hs
    exact ⟨hend, ost, oc, ho1, ho2, ho3, ho4⟩
  | add_int64_attribute name val =>
    simp only [step, Option.some.injEq] at hs
    subst hs
    exact ⟨hend, ost, oc, ho1, ho2, ho3, ho4⟩
  | add_double_attribute name val =>
    simp only [step, Option.some.injEq] at hs
    subst hs
    exact ⟨hend, ost, oc, ho1, ho2, ho3, ho4⟩
  | get_serialized_data buf buf_len =>
    simp only [step, get_serialized_data_handle, Option.some.injEq] at hs
    subst hs
    exact ⟨hend, ost, oc, ho1, ho2, ho3, ho4⟩
  | exit_span =>
    cases hc : s.handle.m_context with
    | nil => simp [step_exit_nil s hc] at hs
    | cons top rest =>
      rw [step_exit_cons s top rest hc, Option.some.injEq] at hs
      subst hs
      rw [hc] at hend ho1
      cases ost with
      | nil => simp at ho1
      | cons k ost1 =>
        simp only [List.map_cons, List.cons.injEq] at ho1
        refine ⟨fun sp hsp => hend sp (List.mem_cons_of_mem _ hsp), ost1, oc ++ [k],
          ho1.2, ?_, ?_, ?_⟩
        · simp only [List.map_append, List.map_cons, List.map_nil, ho2, ho1.1]
        · have hperm : (ost1 ++ (oc ++ [k])).Perm (k :: ost1 ++ oc) := by
            rw [← List.append_assoc]
            exact List.perm_append_singleton k (ost1 ++ oc)
          exact hperm.nodup_iff.mpr ho3
        · intro j hj
          apply ho4
          simp only [List.mem_append, List.mem_cons, List.mem_singleton, List.not_mem_nil,
            or_false] at hj ⊢
          tauto

theorem origins_run (w : World) (ops : List Op) (s : Session)
    (hrun : run (Session.new w) ops = some s) :
    (∀ sp ∈ s.handle.m_context, sp.end_time_unix_nano = 0) ∧
      ∃ ost oc, Session.Origins s ost oc := by
  refine run_preserves
    (fun s => (∀ sp ∈ s.handle.m_context, sp.end_time_unix_nano = 0) ∧
      ∃ ost oc, Session.Origins s ost oc)
    (fun s op s1 hP hs => origins_step s op s1 hP hs) ops (Session.new w) s ?_ hrun
  refine ⟨by simp [Session.new, Handle.new], [], [], ?_, ?_, ?_, ?_⟩
  · simp [Session.new, Handle.new]
  · simp [Session.new]
  · simp
  · simp

/-- C19: in every state reached from a new session every span on the stack
has `end_time_unix_nano` at its default 0, never written. `exit_span` writes
the end time of the top span, hands it to the serializer and removes it from
the stack; no other call touches the closed spans or removes a span, and the
only call that adds to the stack is `enter_span`, which adds a newly created
span. The open and the closed spans stem from pairwise different `enter_span`
calls, so a closed span is not on the stack again; when the draws made so far
are pairwise different, no open span has the span id of a closed one. -/
theorem c19_end_time_written_at_exit (w : World) (ops : List Op) (s : Session)
    (hrun : run (Session.new w) ops = some s) :
    (∀ sp ∈ s.handle.m_context, sp.end_time_unix_nano = 0) ∧
    (∀ top rest, s.handle.m_context = top :: rest →
      ∃ s1, step s Op.exit_span = some s1 ∧
        s1.handle.m_context = rest ∧
        s1.closed =
          s.closed ++ [{ top with end_time_unix_nano := (_now_unix_nano s.world).1 }] ∧
        s1.handle.m_serialized = s.handle.m_serialized ++
          Span.encode { top with end_time_unix_nano := (_now_unix_nano s.world).1 }) ∧
    (∀ op s1, step s op = some s1 → op ≠ Op.exit_span →
      s1.closed = s.closed ∧
      (s1.handle.m_context = s.handle.m_context ∨
        ∃ name, op = Op.enter_span name ∧
          s1.handle.m_context = enteredSpan s.handle s.world name :: s.handle.m_context)) ∧
    (∃ ost oc, Session.Origins s ost oc) ∧
    ((∀ i j, i < s.world.drawn → j < s.world.drawn →
        s.world.rng i % 2 ^ 64 = s.world.rng j % 2 ^ 64 → i = j) →
      ∀ a ∈ s.closed, ∀ b ∈ s.handle.m_context, a.span_id ≠ b.span_id) := by
  obtain ⟨hend, ost, oc, horig⟩ := origins_run w ops s hrun
  refine ⟨hend, ?_, ?_, ⟨ost, oc, horig⟩, ?_⟩
  · intro top rest hc
    exact ⟨_, step_exit_cons s top rest hc, rfl, rfl, rfl⟩
  · intro op s1 hs hne
    cases op with
    | enter_span name =>
      simp only [step, enter_span_eq, Option.some.injEq] at hs
      subst hs
      exact ⟨rfl, Or.inr ⟨name, rfl, rfl⟩⟩
    | add_string_attribute name val =>
      simp only [step, Option.some.injEq] at hs
      subst hs
      exact ⟨rfl, Or.inl rfl⟩
    | add_bool_attribute name val =>
      simp only [step, Option.some.injEq] at hs
      subst hs
      exact ⟨rfl, Or.inl rfl⟩
    | add_int64_attribute name val =>
      simp only [step, Option.some.injEq] at hs
      subst hs
      exact ⟨rfl, Or.inl rfl⟩
    | add_double_attribute name val =>
      simp only [step, Option.some.injEq] at hs
      subst hs
      exact ⟨rfl, Or.inl rfl⟩
    | get_serialized_data buf buf_len =>
      simp only [step, get_serialized_data_handle, Option.some.injEq] at hs
      subst hs
      exact ⟨rfl, Or.inl rfl⟩
    | exit_span => exact absurd rfl hne
  · intro hinj a ha b hb heq
    obtain ⟨ho1, ho2, ho3, ho4⟩ := horig
    have ha1 : a.span_id ∈ s.closed.map (fun sp => sp.span_id) := List.mem_map_of_mem _ ha
    have hb1 : b.span_id ∈ s.handle.m_context.map (fun sp => sp.span_id) :=
      List.mem_map_of_mem _ hb
    rw [ho2] at ha1
    rw [ho1] at hb1
    obtain ⟨i, hi, hia⟩ := List.mem_map.mp ha1
    obtain ⟨j, hj, hjb⟩ := List.mem_map.mp hb1
    have hij : i = j := by
      apply hinj i j (ho4 i (List.mem_append_right _ hi)) (ho4 j (List.mem_append_left _ hj))
      have h1 := bytes8_injective (s.world.rng i % 2 ^ 64) (s.world.rng j % 2 ^ 64)
        (by rw [hia, hjb, heq])
      simpa using h1
    subst hij
    exact (List.nodup_append.mp ho3).2.2 hj hi

theorem c19_end_time_written_at_exit_witness :
    run (Session.new World.sample) [Op.enter_span str_r] = some Session.sampleOpen ∧
    (∀ sp ∈ Session.sampleOpen.handle.m_context, sp.end_time_unix_nano = 0) ∧
    run (Session.new World.sample) [Op.enter_span str_r, Op.exit_span, Op.enter_span str_s]
      = some Session.sampleMixed ∧
    (∀ i j, i < Session.sampleMixed.world.drawn → j < Session.sampleMixed.world.drawn →
      Session.sampleMixed.world.rng i % 2 ^ 64 = Session.sampleMixed.world.rng j % 2 ^ 64 →
      i = j) ∧
    (∀ a ∈ Session.sampleMixed.closed, ∀ b ∈ Session.sampleMixed.handle.m_context,
      a.span_id ≠ b.span_id) := by
  have hdraws : ∀ i j, i < Session.sampleMixed.world.drawn →
      j < Session.sampleMixed.world.drawn →
      Session.sampleMixed.world.rng i % 2 ^ 64 = Session.sampleMixed.world.rng j % 2 ^ 64 →
      i = j := by
    intro i j hi hj hij
    have hi4 : i < 4 := hi
    have hj4 : j < 4 := hj
    have hij1 : (i + 1) % 2 ^ 64 = (j + 1) % 2 ^ 64 := hij
    omega
  exact ⟨run_sampleOpen,
    (c19_end_time_written_at_exit World.sample [Op.enter_span str_r] Session.sampleOpen
      run_sampleOpen).1,
    rfl, hdraws,
    (c19_end_time_written_at_exit World.sample
      [Op.enter_span str_r, Op.exit_span, Op.enter_span str_s] Session.sampleMixed rfl).2.2.2.2
      hdraws⟩

end LuaRestyProtobuf
